import Mathlib

set_option linter.unusedVariables false

/- Verification of the UsenetStreamer core engine (src/server.js): the
   stream-resolution cache, the completion poller, the media locator, and
   the range-aware file/proxy serving paths, as a shallow embedding of the
   JavaScript source.  Times are modelled in milliseconds as naturals
   (`Date.now()` is non-negative); the single-threaded event loop makes each
   synchronous section of the JS source one atomic step of the model. -/

/-! ## Constants (src/server.js lines 30-33) -/

def NZBDAV_POLL_INTERVAL_MS : Nat := 2000

def NZBDAV_POLL_TIMEOUT_MS : Nat := 80000

def NZBDAV_CACHE_TTL_MS : Nat := 3600000

def NZBDAV_MAX_DIRECTORY_DEPTH : Nat := 6

/-! ## Data carried by the cache -/

/-- Result of a successful build pipeline (`buildNzbdavStream` return value). -/
structure StreamData where
  nzoId : String
  category : String
  jobName : String
  viewPath : String
  size : Nat
deriving DecidableEq, Repr

/-- A JavaScript `Error` as the engine decorates it: `isNzbdavFailure`,
`failureMessage`, `nzoId`, `category` are set by `waitForNzbdavHistorySlot`
on an explicit job failure; `responseStatus` models `error.response?.status`
of axios errors.  Absent (undefined) fields are `none`/`false`. -/
structure NzbError where
  message : String
  isNzbdavFailure : Bool
  failureMessage : Option String
  nzoId : Option String
  category : Option String
  responseStatus : Option Nat
deriving DecidableEq, Repr

/-- How one run of the builder promise settles. -/
inductive BuildOutcome where
  | ok (d : StreamData)
  | err (e : NzbError)
deriving DecidableEq, Repr

/-- The `status` field of a cache entry.  A pending entry holds the in-flight
promise, identified in the model by the build id that created it. -/
inductive EntryStatus where
  | pending (bid : Nat)
  | ready (d : StreamData)
  | failed (e : NzbError)
deriving DecidableEq, Repr

/-- One value of `nzbdavStreamCache`: the JS object `{status, ...}` with an
optional `expiresAt`.  The `pending` objects are created without an
`expiresAt` field (line 541), modelled as `none`. -/
structure CacheEntry where
  status : EntryStatus
  expiresAt : Option Nat
deriving DecidableEq, Repr

/-- The cache `Map`, as an association list whose keys stay `Nodup`
(mirroring the one-entry-per-key semantics of a JS `Map`). -/
abbrev CacheMap := List (String × CacheEntry)

/-- `Map.get`. -/
def mapGet : CacheMap → String → Option CacheEntry
  | [], _ => none
  | (k', v) :: rest, k => if k' = k then some v else mapGet rest k

/-- `Map.set`: replace in place if present, else append. -/
def mapSet : CacheMap → String → CacheEntry → CacheMap
  | [], k, v => [(k, v)]
  | (k', v') :: rest, k, v =>
    if k' = k then (k, v) :: rest else (k', v') :: mapSet rest k v

/-- `Map.delete`. -/
def mapDelete : CacheMap → String → CacheMap
  | [], _ => []
  | (k', v') :: rest, k =>
    if k' = k then mapDelete rest k else (k', v') :: mapDelete rest k

def keysOf (m : CacheMap) : List String := m.map (·.1)

/-! ## Lazy eviction (`cleanupNzbdavCache`, lines 502-513) -/

/-- The eviction test `entry.expiresAt && entry.expiresAt <= now`: a missing
(`none`) or zero (falsy) `expiresAt` never evicts. -/
def shouldEvict (now : Nat) (e : CacheEntry) : Bool :=
  match e.expiresAt with
  | some t => decide (t ≠ 0) && decide (t ≤ now)
  | none => false

def cleanupPass (now : Nat) : CacheMap → CacheMap
  | [] => []
  | (k, e) :: rest =>
    if shouldEvict now e then cleanupPass now rest
    else (k, e) :: cleanupPass now rest

def cleanupNzbdavCache (now : Nat) (m : CacheMap) : CacheMap :=
  if NZBDAV_CACHE_TTL_MS ≤ 0 then m else cleanupPass now m

/-! ## The cache state machine (`getOrCreateNzbdavStream`, lines 515-557)

The JS event loop runs each synchronous section atomically.  An *access* is
the synchronous prologue of `getOrCreateNzbdavStream` (cleanup, lookup and,
on a miss, creation of the builder promise plus installation of the pending
entry).  A *commit* is the synchronous section that runs when that build's
promise settles: the `set` to `ready` inside the immediately-invoked async
function on success, or the `catch` block of the installing caller on error
(`set` to `failed` for an `isNzbdavFailure` error, `delete` otherwise).
`builds` and `committed` are ghost bookkeeping used only to say which commit
events are possible: a build can only commit after it was started and only
once. -/

structure SysState where
  cache : CacheMap
  nextBuild : Nat
  builds : List (Nat × String)
  committed : List Nat
deriving DecidableEq, Repr

/-- What the access returns to its caller: the memoized data, the shared
in-flight promise of build `bid`, the memoized (re-thrown) error, or a
freshly started build `bid` (the caller holds its promise too). -/
inductive ArrivalResult where
  | gotReady (d : StreamData)
  | joined (bid : Nat)
  | gotFailed (e : NzbError)
  | started (bid : Nat)
deriving DecidableEq, Repr

/-- The synchronous prologue of `getOrCreateNzbdavStream` at time `t`. -/
def accessStep (t : Nat) (key : String) (s : SysState) : ArrivalResult × SysState :=
  let cache := cleanupNzbdavCache t s.cache
  match mapGet cache key with
  | some e =>
    match e.status with
    | .ready d => (.gotReady d, { s with cache := cache })
    | .pending b => (.joined b, { s with cache := cache })
    | .failed err => (.gotFailed err, { s with cache := cache })
  | none =>
    let b := s.nextBuild
    (.started b,
      { s with
        cache := mapSet cache key ⟨.pending b, none⟩
        nextBuild := b + 1
        builds := (b, key) :: s.builds })

/-- The commit when build `bid`'s promise settles at time `t` (lines
531-539 on success, 543-556 on error). -/
def commitStep (t : Nat) (key : String) (bid : Nat) (o : BuildOutcome)
    (s : SysState) : SysState :=
  match o with
  | .ok d =>
    { s with
      cache := mapSet s.cache key
        ⟨.ready d, if 0 < NZBDAV_CACHE_TTL_MS then some (t + NZBDAV_CACHE_TTL_MS) else none⟩
      committed := bid :: s.committed }
  | .err e =>
    if e.isNzbdavFailure then
      { s with
        cache := mapSet s.cache key
          ⟨.failed e, if 0 < NZBDAV_CACHE_TTL_MS then some (t + NZBDAV_CACHE_TTL_MS) else none⟩
        committed := bid :: s.committed }
    else
      { s with
        cache := mapDelete s.cache key
        committed := bid :: s.committed }

/-- Events of the cache machine. -/
inductive CacheEv where
  | access (t : Nat) (key : String)
  | commit (t : Nat) (key : String) (bid : Nat) (o : BuildOutcome)
deriving DecidableEq, Repr

def stepEv (s : SysState) : CacheEv → SysState
  | .access t key => (accessStep t key s).2
  | .commit t key bid o => commitStep t key bid o s

/-- An access can arrive at any time; a commit is possible only for a build
that was started for that key and has not committed yet (a promise settles
once, and its handlers run once). -/
def evValid (s : SysState) : CacheEv → Bool
  | .access _ _ => true
  | .commit _ key bid _ =>
    decide ((bid, key) ∈ s.builds) && !(decide (bid ∈ s.committed))

def runTrace (s : SysState) : List CacheEv → SysState
  | [] => s
  | ev :: evs => runTrace (stepEv s ev) evs

def traceValid (s : SysState) : List CacheEv → Bool
  | [] => true
  | ev :: evs => evValid s ev && traceValid (stepEv s ev) evs

def initState : SysState := ⟨[], 0, [], []⟩

def Reachable (s : SysState) : Prop :=
  ∃ evs, traceValid initState evs = true ∧ runTrace initState evs = s

/-- A row of consecutive accesses on one key at the given times, collecting
what each caller receives (used to state the single-flight claim). -/
def runAccesses (key : String) (s : SysState) : List Nat → List ArrivalResult × SysState
  | [] => ([], s)
  | t :: ts =>
    let p := accessStep t key s
    let q := runAccesses key p.2 ts
    (p.1 :: q.1, q.2)

/-- All callers attached to the same build's promise observe the same
settlement: `deliver` maps a build id to its eventual outcome, and a caller
that received a memoized value observes exactly that value. -/
def observedOutcome (deliver : Nat → BuildOutcome) : ArrivalResult → BuildOutcome
  | .gotReady d => .ok d
  | .gotFailed e => .err e
  | .joined b => deliver b
  | .started b => deliver b

/-- Sample job-failure error (concrete instance for witnesses). -/
def sampleFailure : NzbError :=
  ⟨"[NZBDAV] NZB failed: boom", true, some "boom", some "n1", some "Movies", none⟩

/-- Sample transient error (not a job failure). -/
def sampleTimeout : NzbError :=
  ⟨"[NZBDAV] Timeout while waiting for NZB to become streamable",
    false, none, none, none, none⟩

/-- Sample successful build result (concrete instance for witnesses). -/
def sampleData : StreamData :=
  ⟨"n1", "Movies", "My.Movie.2024", "content/Movies/My.Movie.2024/m.mkv", 1000⟩

/-! ## Range parsing and file serving (`streamFileResponse`, lines 330-418) -/

/-- Value of `Number.parseInt` on a decimal-digit run. -/
def digitsToNat (l : List Char) : Nat :=
  l.foldl (fun acc c => acc * 10 + (c.toNat - '0'.toNat)) 0

/-- The test `/^bytes=\d*-\d*$/.test(h)` followed by the split on `=` and
on `-` (lines 353-355): `some (ds, de)` when the whole header matches, with
the possibly empty digit runs before and after the dash. -/
def rangeRegexMatch (h : String) : Option (List Char × List Char) :=
  let cs := h.toList
  if cs.take 6 = "bytes=".toList then
    let rest := cs.drop 6
    let ds := rest.takeWhile Char.isDigit
    match rest.drop ds.length with
    | '-' :: de => if de.all Char.isDigit then some (ds, de) else none
    | _ => none
  else none

/-- `Number.isFinite(Number.parseInt(run))` for a digit run: parseInt of
digits is a non-negative double, finite exactly when its value is below the
IEEE-754 overflow threshold (2^1024, up to one final ulp), and numerically
exact below 2^53 — the regime all theorems below restrict to.  The
`parsedStart >= 0` half of the guard is always true on digits. -/
def jsFiniteDigits (l : List Char) : Bool := digitsToNat l < 2 ^ 1024

/-- Observable outcome of `streamFileResponse`: status, the `Content-Range`
header when set, the `Content-Length` header when set, and the number of
body bytes carried by the piped read stream (`end - start + 1`). -/
structure FileResponse where
  status : Nat
  contentRange : Option String
  contentLength : Option Int
  bodyBytes : Int
deriving DecidableEq, Repr

/-- `start` after lines 357-362: the parsed value when the run is nonempty,
finite and non-negative, else the initial 0. -/
def parsedStart (ds : List Char) : Int :=
  if ds ≠ [] ∧ jsFiniteDigits ds then (digitsToNat ds : Int) else 0

/-- `end` after lines 364-373: the parsed value when the run is nonempty,
finite and non-negative, else the initial `totalSize - 1`. -/
def parsedEnd (de : List Char) (totalSize : Int) : Int :=
  if de ≠ [] ∧ jsFiniteDigits de then (digitsToNat de : Int) else totalSize - 1

/-- The clamp of line 381: `end >= totalSize || end < start` resets `end`
to `totalSize - 1`. -/
def clampEnd (start endV totalSize : Int) : Int :=
  if totalSize ≤ endV ∨ endV < start then totalSize - 1 else endV

/-- Lines 375-404 for a matched Range header: `416` when `start` is past the
file, else a `206` partial response for the clamped range. -/
def rangeResponse (start endV totalSize : Int) : FileResponse :=
  if totalSize ≤ start then
    ⟨416, some ("bytes */" ++ toString totalSize), none, 0⟩
  else
    ⟨206,
      some ("bytes " ++ toString start ++ "-" ++ toString (clampEnd start endV totalSize) ++
        "/" ++ toString totalSize),
      some (clampEnd start endV totalSize - start + 1),
      clampEnd start endV totalSize - start + 1⟩

def rangeResponseCore (parsed : Option (List Char × List Char))
    (totalSize : Int) : FileResponse :=
  match parsed with
  | some (ds, de) => rangeResponse (parsedStart ds) (parsedEnd de totalSize) totalSize
  | none => ⟨200, none, some totalSize, totalSize⟩

/-- `streamFileResponse` (lines 330-418) for an existing regular file of
`totalSize` bytes: HEAD emulation answers `200` with `Content-Length` and no
body (lines 341-346); otherwise a Range header matching `^bytes=\d*-\d*$`
is honoured and a missing or non-matching header yields the full `200`. -/
def streamFileResponse (emulateHead : Bool) (rangeHeader : Option String)
    (totalSize : Int) : FileResponse :=
  if emulateHead then ⟨200, none, some totalSize, 0⟩
  else rangeResponseCore (rangeHeader.bind rangeRegexMatch) totalSize

/-! ## Range-aware proxy (`proxyNzbdavStream`, lines 599-677) -/

/-- `toUpperCase` on ASCII method names, as an executable character map
(the built-in `String.toUpper` is extensionally the same but is defined by
well-founded recursion, which blocks kernel evaluation). -/
def jsToUpper (s : String) : String := String.mk (s.toList.map Char.toUpper)

/-- `toLowerCase`, same remark as `jsToUpper`. -/
def jsToLower (s : String) : String := String.mk (s.toList.map Char.toLower)

/-- The six inbound headers the proxy may forward (lines 620-625). -/
structure ProxyHeaders where
  range : Option String
  ifRange : Option String
  accept : Option String
  acceptLanguage : Option String
  acceptEncoding : Option String
  userAgent : Option String
deriving DecidableEq, Repr

/-- The axios-resolved upstream response: status (< 500, else axios throws),
headers, and whether `response.data` is a pipeable stream. -/
structure UpstreamResponse where
  status : Nat
  headers : List (String × String)
  pipeable : Bool
deriving DecidableEq, Repr

inductive ProxyResult where
  | methodNotAllowed
  | proxied (reqMethod : String) (reqHeaders : ProxyHeaders) (status : Nat)
      (respHeaders : List (String × String)) (piped : Bool)
deriving DecidableEq, Repr

/-- `if (req.headers.x) headers.X = req.headers.x`: an empty string is falsy
and is not copied. -/
def copyHeader (v : Option String) : Option String :=
  match v with
  | some s => if s = "" then none else some s
  | none => none

/-- Lines 620-628: pass through the six headers; for HEAD emulation with no
`Range` present, substitute `Range: bytes=0-0`. -/
def forwardedHeaders (emulateHead : Bool) (inbound : ProxyHeaders) : ProxyHeaders :=
  { range := if emulateHead ∧ copyHeader inbound.range = none then some "bytes=0-0"
      else copyHeader inbound.range
    ifRange := copyHeader inbound.ifRange
    accept := copyHeader inbound.accept
    acceptLanguage := copyHeader inbound.acceptLanguage
    acceptEncoding := copyHeader inbound.acceptEncoding
    userAgent := copyHeader inbound.userAgent }

/-- `proxyNzbdavStream`: `405` outside GET/HEAD; HEAD is emulated by a GET;
upstream status and headers are relayed verbatim except `Transfer-Encoding`
(lines 650-657); the upstream body is piped only for a non-HEAD request with
a pipeable data stream (line 659). -/
def proxyNzbdavStream (method : String) (inbound : ProxyHeaders)
    (upstream : UpstreamResponse) : ProxyResult :=
  if jsToUpper method = "GET" ∨ jsToUpper method = "HEAD" then
    .proxied (if jsToUpper method = "HEAD" then "GET" else jsToUpper method)
      (forwardedHeaders (decide (jsToUpper method = "HEAD")) inbound)
      upstream.status
      (upstream.headers.filter (fun p => !(jsToLower p.1 == "transfer-encoding")))
      (!(decide (jsToUpper method = "HEAD")) && upstream.pipeable)
  else .methodNotAllowed

/-- Upstream response of a compliant WebDAV backend to the substituted
`GET Range: bytes=0-0` for a 1000-byte file (used as the C8 counterexample
input). -/
def c8Upstream : UpstreamResponse :=
  ⟨206, [("Content-Length", "1"), ("Content-Range", "bytes 0-0/1000")], true⟩

/-! ## Failure fallback (`streamFailureVideo` lines 420-436 and the error
branch of `handleNzbdavStream`, lines 1186-1205) -/

/-- JS `a || b` where an empty string is falsy. -/
def jsOrStr (a : Option String) (b : String) : String :=
  match a with
  | some s => if s = "" then b else s
  | none => b

/-- `error.failureMessage || error.message || 'NZBDav download failed'`. -/
def failureReasonOf (e : NzbError) : String :=
  jsOrStr e.failureMessage (jsOrStr (some e.message) "NZBDav download failed")

/-- `error.response?.status || 502`. -/
def jsErrorStatus (e : NzbError) : Nat :=
  match e.responseStatus with
  | some st => if st = 0 then 502 else st
  | none => 502

inductive HandlerErrorOutcome where
  | fallbackStream (failureHeader : Option String) (resp : FileResponse)
  | errorJson (status : Nat) (msg : String)
  | connectionEnd
deriving DecidableEq, Repr

/-- `streamFailureVideo`: `none` when the bundled fallback file is missing
(`safeStat` failed or not a regular file); otherwise the value of the
`X-NZBDav-Failure` header (set only when headers are unsent) together with
the full range-supporting file response for the fallback file. -/
def streamFailureVideo (method : String) (rangeHeader : Option String)
    (headersSent : Bool) (failureStats : Option Int) (e : NzbError) :
    Option (Option String × FileResponse) :=
  match failureStats with
  | none => none
  | some size =>
      some (if headersSent then none else some (failureReasonOf e),
        streamFileResponse (decide (jsToUpper method = "HEAD")) rangeHeader size)

/-- The `catch` branch of `handleNzbdavStream` (lines 1186-1205). -/
def handleStreamError (method : String) (rangeHeader : Option String)
    (headersSent : Bool) (failureStats : Option Int) (e : NzbError) :
    HandlerErrorOutcome :=
  if e.isNzbdavFailure then
    match streamFailureVideo method rangeHeader headersSent failureStats e with
    | some (h, r) => .fallbackStream h r
    | none =>
      if headersSent then .connectionEnd
      else .errorJson 502 (jsOrStr e.failureMessage e.message)
  else
    if headersSent then .connectionEnd
    else .errorJson (jsErrorStatus e) e.message

/-! ## Completion poller (`waitForNzbdavHistorySlot`, lines 166-222) -/

/-- One history slot after field-alias normalization (`nzo_id`/`nzoId`/
`NzoId`, `status`/`Status`, `fail_message`/`failMessage`/`FailMessage`).
A missing fail message is the empty string (falsy). -/
structure HistorySlot where
  nzoId : String
  status : String
  failMessage : String
deriving DecidableEq, Repr

/-- What one poll of the history API yields: a manager error (falsy
`response.data.status`, lines 189-192) or the list of slots. -/
inductive PollResponse where
  | managerError (msg : String)
  | slots (l : List HistorySlot)
deriving DecidableEq, Repr

inductive PollResult where
  | ok (s : HistorySlot)
  | err (e : NzbError)
deriving DecidableEq, Repr

/-- The decorated job-failure error of lines 207-214. -/
def jobFailureError (slot : HistorySlot) (nzoId category : String) : NzbError :=
  { message := "[NZBDAV] NZB failed: " ++
      (if slot.failMessage = "" then "Unknown NZBDav error" else slot.failMessage)
    isNzbdavFailure := true
    failureMessage :=
      some (if slot.failMessage = "" then "Unknown NZBDav error" else slot.failMessage)
    nzoId := some nzoId
    category := some category
    responseStatus := none }

/-- The plain history-query error of lines 189-192; not a job failure. -/
def historyQueryError (msg : String) : NzbError :=
  { message := "[NZBDAV] Failed to query history: " ++ msg
    isNzbdavFailure := false
    failureMessage := none
    nzoId := none
    category := none
    responseStatus := none }

/-- The plain timeout error of line 221; not a job failure. -/
def pollTimeoutError : NzbError :=
  { message := "[NZBDAV] Timeout while waiting for NZB to become streamable"
    isNzbdavFailure := false
    failureMessage := none
    nzoId := none
    category := none
    responseStatus := none }

/-- The poll loop of lines 170-219.  Time is idealized: each iteration takes
exactly one 2-second sleep (API calls instantaneous), so the
`Date.now() < deadline` check of iteration `k` reads
`t0 + k * interval < t0 + timeout`, i.e. `k * interval < timeout`.  `fuel`
only bounds the recursion: the entry point passes `41 > timeout/interval`,
so the fuel-0 case (which mirrors the deadline result) is never reached. -/
def waitLoopFuel (responses : Nat → PollResponse) (nzoId category : String) :
    Nat → Nat → PollResult
  | 0, _ => .err pollTimeoutError
  | fuel + 1, k =>
    if k * NZBDAV_POLL_INTERVAL_MS < NZBDAV_POLL_TIMEOUT_MS then
      match responses k with
      | .managerError msg => .err (historyQueryError msg)
      | .slots l =>
        match l.find? (fun s => s.nzoId == nzoId) with
        | some slot =>
          if jsToLower slot.status = "completed" then .ok slot
          else if jsToLower slot.status = "failed" then
            .err (jobFailureError slot nzoId category)
          else waitLoopFuel responses nzoId category fuel (k + 1)
        | none => waitLoopFuel responses nzoId category fuel (k + 1)
    else .err pollTimeoutError

def waitForNzbdavHistorySlot (responses : Nat → PollResponse)
    (nzoId category : String) : PollResult :=
  waitLoopFuel responses nzoId category 41 0

/-- Poll `j` neither terminates nor errors: slots with no matching entry, or
a matching entry in a non-terminal status. -/
def pollContinuesAt (responses : Nat → PollResponse) (nzoId : String)
    (j : Nat) : Bool :=
  match responses j with
  | .managerError _ => false
  | .slots l =>
    match l.find? (fun s => s.nzoId == nzoId) with
    | none => true
    | some slot =>
      !(jsToLower slot.status == "completed") && !(jsToLower slot.status == "failed")

/-- Concrete poll history for the C5 witness: one non-terminal poll, then a
completed slot. -/
def samplePollResponses (j : Nat) : PollResponse :=
  if j = 0 then .slots [⟨"n1", "Extracting", ""⟩]
  else .slots [⟨"n1", "Completed", ""⟩]

/-! ## Media locator (`findBestVideoFile`, lines 438-500) -/

/-- `normalizeNzbdavPath` (lines 314-320): backslashes become slashes and a
leading slash is ensured; an empty (falsy) value is the root. -/
def normalizeNzbdavPath (p : String) : String :=
  if p = "" then "/"
  else
    let n := String.mk (p.toList.map (fun c => if c = '\\' then '/' else c))
    match n.toList with
    | '/' :: _ => n
    | _ => "/" ++ n

/-- `entry?.name || entry?.Name` inside the `${currentPath}/${entryName}`
template: an empty name is falsy, yielding `undefined`, which the template
renders as the string "undefined". -/
def effectiveChildSegment (name : String) : String :=
  if name = "" then "undefined" else name

def childPath (parent name : String) : String :=
  normalizeNzbdavPath (parent ++ "/" ++ name)

/-- `path.posix.extname` of a file name: the suffix from the last dot of the
basename; empty when there is no dot, when the dot is the basename's first
character, or when the basename is exactly "..". -/
def extnamePosix (s : String) : String :=
  let base := (s.toList.reverse.takeWhile (fun c => ¬c = '/')).reverse
  let afterDot := base.reverse.takeWhile (fun c => ¬c = '.')
  if afterDot.length = base.length then ""
  else if base.length = afterDot.length + 1 then ""
  else if base = ['.', '.'] then ""
  else String.mk (base.drop (base.length - afterDot.length - 1))

/-- `NZBDAV_VIDEO_EXTENSIONS` (lines 55-68). -/
def NZBDAV_VIDEO_EXTENSIONS : List String :=
  [".mp4", ".mkv", ".avi", ".mov", ".wmv", ".flv", ".webm", ".m4v", ".ts",
    ".m2ts", ".mpg", ".mpeg"]

/-- `isVideoFileName` (lines 267-270). -/
def isVideoFileName (fileName : String) : Bool :=
  NZBDAV_VIDEO_EXTENSIONS.contains (extnamePosix (jsToLower fileName))

/-! Episode matching (`fileMatchesEpisode`, lines 272-284).  The four
patterns are built from template literals in which the intended regex
escapes `\.` and `\s` are consumed as plain-string escapes, so the compiled
regexes are `s0*Se0*E(?![0-9])`, `s0*S.?e0*E(?![0-9])`,
`0*S[xX]0*E(?![0-9])` and `[eE](?:pisode|p).?s*0*E(?![0-9])` for season S
and episode E; the `i` flag is modelled by lowercasing the file name. -/

structure Episode where
  season : Nat
  episode : Nat
deriving DecidableEq, Repr

/-- Match an exact character sequence, then continue. -/
def litMatch : List Char → (List Char → Bool) → List Char → Bool
  | [], cont, rest => cont rest
  | _ :: _, _, [] => false
  | p :: ps, cont, x :: xs => decide (x = p) && litMatch ps cont xs

/-- Regex `c*` with backtracking: some number of leading `c`s is consumed. -/
def starCharMatch (c : Char) (cont : List Char → Bool) : List Char → Bool
  | [] => cont []
  | x :: xs => cont (x :: xs) || (decide (x = c) && starCharMatch c cont xs)

/-- Regex `.?`. -/
def optAnyMatch (cont : List Char → Bool) : List Char → Bool
  | [] => cont []
  | x :: xs => cont (x :: xs) || cont xs

/-- The trailing `(?![0-9])` lookahead. -/
def noDigitNext : List Char → Bool
  | [] => true
  | x :: _ => !x.isDigit

/-- Decimal digits of `${n}` in a template literal. -/
def natDigits (n : Nat) : List Char := (toString n).toList

def epPattern1 (sd ed : List Char) : List Char → Bool :=
  litMatch ['s'] (starCharMatch '0' (litMatch sd
    (litMatch ['e'] (starCharMatch '0' (litMatch ed noDigitNext)))))

def epPattern2 (sd ed : List Char) : List Char → Bool :=
  litMatch ['s'] (starCharMatch '0' (litMatch sd
    (optAnyMatch (litMatch ['e'] (starCharMatch '0' (litMatch ed noDigitNext))))))

def epPattern3 (sd ed : List Char) : List Char → Bool :=
  starCharMatch '0' (litMatch sd (litMatch ['x']
    (starCharMatch '0' (litMatch ed noDigitNext))))

def epPattern4Tail (ed : List Char) : List Char → Bool :=
  optAnyMatch (starCharMatch 's' (starCharMatch '0' (litMatch ed noDigitNext)))

def epPattern4 (ed : List Char) : List Char → Bool := fun l =>
  litMatch ['e'] (fun r =>
    litMatch ['p', 'i', 's', 'o', 'd', 'e'] (epPattern4Tail ed) r ||
    litMatch ['p'] (epPattern4Tail ed) r) l

/-- Unanchored regex search: try every start position. -/
def searchFrom (m : List Char → Bool) : List Char → Bool
  | [] => m []
  | x :: xs => m (x :: xs) || searchFrom m xs

def fileMatchesEpisode (fileName : String) (requestedEpisode : Option Episode) : Bool :=
  match requestedEpisode with
  | none => true
  | some ep =>
    let lower := (jsToLower fileName).toList
    let sd := natDigits ep.season
    let ed := natDigits ep.episode
    searchFrom (epPattern1 sd ed) lower || searchFrom (epPattern2 sd ed) lower ||
    searchFrom (epPattern3 sd ed) lower || searchFrom (epPattern4 ed) lower

/-- One listing entry as returned by `listWebdavDirectory` (lines 249-265),
after alias normalization; a missing size is 0 (`Number(null ?? 0)`). -/
structure DavEntry where
  name : String
  isDirectory : Bool
  size : Nat
deriving DecidableEq, Repr

/-- A candidate video file (lines 479-485). -/
structure Candidate where
  name : String
  size : Nat
  matchesEpisode : Bool
  absolutePath : String
  viewPath : String
deriving DecidableEq, Repr

/-- `nextPath.replace(/^\/+/, '')`. -/
def stripLeadingSlashes (s : String) : String :=
  String.mk (s.toList.dropWhile (fun c => c = '/'))

structure QItem where
  path : String
  depth : Nat
deriving DecidableEq, Repr

/-- Loop state of `findBestVideoFile`.  `visited` records the listed items
in order with the depth at which each was listed (the JS `Set` holds the
paths); `files` is ghost instrumentation collecting every video-file
candidate considered. -/
structure BfsState where
  queue : List QItem
  visited : List QItem
  files : List Candidate
  bestEpisodeMatch : Option Candidate
  bestMatch : Option Candidate
deriving DecidableEq, Repr

def visitedHas (v : List QItem) (p : String) : Bool :=
  v.any (fun it => it.path == p)

/-- The shared best-update of lines 487-495: first strictly-larger wins. -/
def runningBest (c : Candidate) (best : Option Candidate) : Option Candidate :=
  match best with
  | none => some c
  | some b => if c.size > b.size then some c else some b

/-- Lines 463-496: handle one directory entry. -/
def processEntry (re : Option Episode) (parentPath : String) (depth : Nat)
    (s : BfsState) (e : DavEntry) : BfsState :=
  let nextPath := childPath parentPath (effectiveChildSegment e.name)
  if e.isDirectory then
    { s with queue := s.queue ++ [⟨nextPath, depth + 1⟩] }
  else if e.name = "" ∨ ¬isVideoFileName e.name then s
  else
    let m := fileMatchesEpisode e.name re
    let c : Candidate := ⟨e.name, e.size, m, nextPath, stripLeadingSlashes nextPath⟩
    { s with
      files := s.files ++ [c]
      bestEpisodeMatch := if m then runningBest c s.bestEpisodeMatch
        else s.bestEpisodeMatch
      bestMatch := runningBest c s.bestMatch }

/-- One iteration of the while loop (lines 445-497) on the dequeued item:
skip past-cap depths, skip visited paths, treat a listing failure
(`fsys path = none`) as a logged skip, else fold over the entries. -/
def bfsStep (fsys : String → Option (List DavEntry)) (re : Option Episode)
    (it : QItem) (rest : List QItem) (s : BfsState) : BfsState :=
  if it.depth > NZBDAV_MAX_DIRECTORY_DEPTH then { s with queue := rest }
  else if visitedHas s.visited it.path then { s with queue := rest }
  else
    let s1 := { s with queue := rest, visited := s.visited ++ [it] }
    match fsys it.path with
    | none => s1
    | some entries => entries.foldl (processEntry re it.path it.depth) s1

/-- The while loop, fuelled; `none` only when the fuel runs out with a
nonempty queue, which the chosen fuel below provably never does. -/
def bfsRun (fsys : String → Option (List DavEntry)) (re : Option Episode) :
    Nat → BfsState → Option BfsState
  | 0, s => if s.queue.isEmpty then some s else none
  | fuel + 1, s =>
    match s.queue with
    | [] => some s
    | it :: rest => bfsRun fsys re fuel (bfsStep fsys re it rest s)

/-- One unfolding of the iteration bound below. -/
def subtreeBoundStep (fsys : String → Option (List DavEntry))
    (f : String → Nat) (p : String) : Nat :=
  1 + (match fsys p with
    | none => 0
    | some es =>
      (es.map (fun e => if e.isDirectory then
          f (childPath p (effectiveChildSegment e.name))
        else 0)).sum)

/-- An upper bound on the number of loop iterations a queue item at
remaining-depth budget `n` can cause: itself plus its enqueued subtrees. -/
def subtreeBound (fsys : String → Option (List DavEntry)) : Nat → String → Nat
  | 0 => fun _ => 1
  | n + 1 => subtreeBoundStep fsys (subtreeBound fsys n)

def childrenBound (fsys : String → Option (List DavEntry)) (n : Nat)
    (p : String) (es : List DavEntry) : Nat :=
  (es.map (fun e => if e.isDirectory then
      subtreeBound fsys n (childPath p (effectiveChildSegment e.name))
    else 0)).sum

def itemWeight (fsys : String → Option (List DavEntry)) (it : QItem) : Nat :=
  subtreeBound fsys (NZBDAV_MAX_DIRECTORY_DEPTH + 1 - it.depth) it.path

def queueMeasure (fsys : String → Option (List DavEntry)) (q : List QItem) : Nat :=
  (q.map (itemWeight fsys)).sum

/-- The directory items a processed entry list pushes (in order). -/
def childItems (p : String) (d : Nat) (es : List DavEntry) : List QItem :=
  es.filterMap (fun e => if e.isDirectory then
    some ⟨childPath p (effectiveChildSegment e.name), d + 1⟩ else none)

/-- The queue starts at the job's content root (line 439-440). -/
def initBfsState (category jobName : String) : BfsState :=
  ⟨[⟨normalizeNzbdavPath ("/content/" ++ category ++ "/" ++ jobName), 0⟩],
    [], [], none, none⟩

def bfsFuel (fsys : String → Option (List DavEntry))
    (category jobName : String) : Nat :=
  queueMeasure fsys (initBfsState category jobName).queue

/-- The loop's final state (the fuel is provably sufficient, see
`c6_bounded_traversal`). -/
def findBestVideoFileState (fsys : String → Option (List DavEntry))
    (category jobName : String) (re : Option Episode) : BfsState :=
  (bfsRun fsys re (bfsFuel fsys category jobName)
    (initBfsState category jobName)).getD (initBfsState category jobName)

/-- `return bestEpisodeMatch || bestMatch` (line 499). -/
def findBestVideoFile (fsys : String → Option (List DavEntry))
    (category jobName : String) (re : Option Episode) : Option Candidate :=
  match (findBestVideoFileState fsys category jobName re).bestEpisodeMatch with
  | some c => some c
  | none => (findBestVideoFileState fsys category jobName re).bestMatch

def runningMax (l : List Candidate) : Option Candidate :=
  l.foldl (fun b c => runningBest c b) none

/-- Replace one path's listing by an empty directory. -/
def overrideEmpty (fsys : String → Option (List DavEntry)) (p : String) :
    String → Option (List DavEntry) :=
  fun q => if q = p then some [] else fsys q

/-- Concrete remote tree for the C4 witness (spec §8's episode-selection
example). -/
def sampleFs : String → Option (List DavEntry) := fun p =>
  if p = "/content/Tv/Job" then
    some [⟨"S01E02.mkv", false, 1000⟩, ⟨"S01E03.mkv", false, 3000⟩,
      ⟨"extras.mkv", false, 5000⟩]
  else none

/-- Chain path at depth `n` for the C6 witness. -/
def deepPath : Nat → String
  | 0 => "/content/Tv/Deep"
  | n + 1 => deepPath n ++ "/a"

/-- Concrete remote tree for the C6 witness: the root lists the directory
`a` twice (a path revisit) plus a directory `b` whose listing fails; below
it a chain of `a` directories reaches depth 8 (deeper than the cap 6). -/
def deepFs (p : String) : Option (List DavEntry) :=
  if p = "/content/Tv/Deep" then
    some [⟨"a", true, 0⟩, ⟨"a", true, 0⟩, ⟨"b", true, 0⟩]
  else if p = "/content/Tv/Deep/b" then none
  else if p ∈ [deepPath 1, deepPath 2, deepPath 3, deepPath 4, deepPath 5,
      deepPath 6, deepPath 7, deepPath 8] then
    some [⟨"a", true, 0⟩]
  else some []

/-- The loop invariant of the locator: listed paths are distinct, nothing
past the depth cap is ever listed, and the two running bests are exactly the
first-wins maxima over the candidates considered so far. -/
def LocatorInv (re : Option Episode) (s : BfsState) : Prop :=
  (s.visited.map (·.path)).Nodup ∧
  (∀ it ∈ s.visited, it.depth ≤ NZBDAV_MAX_DIRECTORY_DEPTH) ∧
  s.bestEpisodeMatch = runningMax (s.files.filter (fun c => c.matchesEpisode)) ∧
  s.bestMatch = runningMax s.files ∧
  (∀ c ∈ s.files, c.matchesEpisode = fileMatchesEpisode c.name re)

/-! ## The cache invariant

All states reachable by valid traces satisfy it: one entry per key, pending
entries never expire and are owned by exactly one uncommitted build, and
`ready`/`failed` entries carry a TTL-derived expiry. -/

structure CacheInv (s : SysState) : Prop where
  nodup : (keysOf s.cache).Nodup
  pendingNoExpiry : ∀ k e b, mapGet s.cache k = some e → e.status = .pending b →
    e.expiresAt = none
  pendingBuild : ∀ k e b, mapGet s.cache k = some e → e.status = .pending b →
    (b, k) ∈ s.builds ∧ b ∉ s.committed ∧
      ∀ b', (b', k) ∈ s.builds → b' ≠ b → b' ∈ s.committed
  noPendingAllCommitted : ∀ k,
    (∀ e b, mapGet s.cache k = some e → e.status ≠ .pending b) →
    ∀ b, (b, k) ∈ s.builds → b ∈ s.committed
  terminalExpiry : ∀ k e, mapGet s.cache k = some e →
    (∀ b, e.status ≠ .pending b) →
    ∃ T, e.expiresAt = some T ∧ NZBDAV_CACHE_TTL_MS ≤ T
  freshBuild : ∀ b k, (b, k) ∈ s.builds → b < s.nextBuild
  buildsNodup : (s.builds.map (·.1)).Nodup
  committedStarted : ∀ b, b ∈ s.committed → ∃ k, (b, k) ∈ s.builds

/-! ## Association-map lemmas -/

theorem mapGet_cons (k₀ : String) (v₀ : CacheEntry) (rest : CacheMap) (k : String) :
    mapGet ((k₀, v₀) :: rest) k = if k₀ = k then some v₀ else mapGet rest k := rfl

theorem mapSet_cons (k₀ : String) (v₀ : CacheEntry) (rest : CacheMap)
    (k : String) (v : CacheEntry) :
    mapSet ((k₀, v₀) :: rest) k v =
      if k₀ = k then (k, v) :: rest else (k₀, v₀) :: mapSet rest k v := rfl

theorem mapDelete_cons (k₀ : String) (v₀ : CacheEntry) (rest : CacheMap) (k : String) :
    mapDelete ((k₀, v₀) :: rest) k =
      if k₀ = k then mapDelete rest k else (k₀, v₀) :: mapDelete rest k := rfl


theorem mapGet_mapSet (m : CacheMap) (k k' : String) (v : CacheEntry) :
    mapGet (mapSet m k v) k' = if k = k' then some v else mapGet m k' := by
  induction m with
  | nil => by_cases h : k = k' <;> simp [mapSet, mapGet, h]
  | cons p rest ih =>
    obtain ⟨k₀, v₀⟩ := p
    by_cases h₀ : k₀ = k
    · subst h₀
      by_cases h : k₀ = k' <;> simp [mapSet, mapGet, h]
    · by_cases h : k₀ = k'
      · subst h
        have hkk : ¬k = k₀ := fun h' => h₀ h'.symm
        simp [mapSet, mapGet, h₀, hkk]
      · simp [mapSet, mapGet, h₀, h, ih]

theorem mapGet_mapDelete (m : CacheMap) (k k' : String) :
    mapGet (mapDelete m k) k' = if k = k' then none else mapGet m k' := by
  induction m with
  | nil => by_cases h : k = k' <;> simp [mapDelete, mapGet, h]
  | cons p rest ih =>
    obtain ⟨k₀, v₀⟩ := p
    by_cases h₀ : k₀ = k
    · subst h₀
      by_cases h : k₀ = k'
      · subst h
        simp [mapDelete, mapGet, ih]
      · simp [mapDelete, mapGet, h, ih]
    · by_cases h : k₀ = k'
      · subst h
        have hkk : ¬k = k₀ := fun h' => h₀ h'.symm
        simp [mapDelete, mapGet, h₀, hkk]
      · simp [mapDelete, mapGet, h₀, h, ih]

theorem mapGet_eq_none_of_not_mem (m : CacheMap) (k : String)
    (h : k ∉ keysOf m) : mapGet m k = none := by
  induction m with
  | nil => simp [mapGet]
  | cons p rest ih =>
    obtain ⟨k₀, v₀⟩ := p
    simp only [keysOf, List.map_cons, List.mem_cons, not_or] at h
    have hk : ¬k₀ = k := fun h' => h.1 h'.symm
    simp only [mapGet, if_neg hk]
    exact ih h.2

theorem mapGet_cleanupPass (now : Nat) (m : CacheMap) (k : String)
    (hnd : (keysOf m).Nodup) :
    mapGet (cleanupPass now m) k =
      match mapGet m k with
      | some e => if shouldEvict now e then none else some e
      | none => none := by
  induction m with
  | nil => simp [cleanupPass, mapGet]
  | cons p rest ih =>
    obtain ⟨k₀, v₀⟩ := p
    simp only [keysOf, List.map_cons, List.nodup_cons] at hnd
    by_cases hk : k₀ = k
    · subst hk
      by_cases he : shouldEvict now v₀
      · simp [cleanupPass, mapGet, he, ih hnd.2,
          mapGet_eq_none_of_not_mem rest k₀ hnd.1]
      · simp [cleanupPass, mapGet, he]
    · by_cases he : shouldEvict now v₀ <;>
        simp [cleanupPass, mapGet, he, hk, ih hnd.2]

/-! ## Constant facts -/

theorem ttl_pos : 0 < NZBDAV_CACHE_TTL_MS := by norm_num [NZBDAV_CACHE_TTL_MS]

theorem cleanupNzbdavCache_eq (now : Nat) (m : CacheMap) :
    cleanupNzbdavCache now m = cleanupPass now m := by
  simp [cleanupNzbdavCache, NZBDAV_CACHE_TTL_MS]

theorem commitExpiry_eq (t : Nat) :
    (if 0 < NZBDAV_CACHE_TTL_MS then some (t + NZBDAV_CACHE_TTL_MS) else none) =
      some (t + NZBDAV_CACHE_TTL_MS) := if_pos ttl_pos

theorem mapGet_cleanup (now : Nat) (m : CacheMap) (k : String)
    (hnd : (keysOf m).Nodup) :
    mapGet (cleanupNzbdavCache now m) k =
      match mapGet m k with
      | some e => if shouldEvict now e then none else some e
      | none => none := by
  rw [cleanupNzbdavCache_eq]
  exact mapGet_cleanupPass now m k hnd

theorem keysOf_cleanupPass_sublist (now : Nat) (m : CacheMap) :
    (keysOf (cleanupPass now m)).Sublist (keysOf m) := by
  induction m with
  | nil => simp [cleanupPass, keysOf]
  | cons p rest ih =>
    obtain ⟨k₀, v₀⟩ := p
    by_cases he : shouldEvict now v₀
    · simpa [cleanupPass, he, keysOf] using ih.cons k₀
    · simpa [cleanupPass, he, keysOf] using ih.cons₂ k₀

theorem nodup_keysOf_cleanupPass (now : Nat) (m : CacheMap)
    (h : (keysOf m).Nodup) : (keysOf (cleanupPass now m)).Nodup :=
  List.Nodup.sublist (keysOf_cleanupPass_sublist now m) h

theorem mem_keysOf_mapSet (m : CacheMap) (k : String) (v : CacheEntry) :
    ∀ x ∈ keysOf (mapSet m k v), x = k ∨ x ∈ keysOf m := by
  induction m with
  | nil =>
    intro x hx
    simp only [mapSet, keysOf, List.map_cons, List.map_nil, List.mem_singleton] at hx
    exact Or.inl hx
  | cons p rest ih =>
    obtain ⟨k₀, v₀⟩ := p
    intro x hx
    rw [mapSet_cons] at hx
    by_cases h₀ : k₀ = k
    · rw [if_pos h₀] at hx
      simp only [keysOf, List.map_cons, List.mem_cons] at hx
      rcases hx with hx | hx
      · exact Or.inl hx
      · exact Or.inr (by simp only [keysOf, List.map_cons, List.mem_cons]; exact Or.inr hx)
    · rw [if_neg h₀] at hx
      simp only [keysOf, List.map_cons, List.mem_cons] at hx
      rcases hx with hx | hx
      · exact Or.inr (by simp only [keysOf, List.map_cons, List.mem_cons]; exact Or.inl hx)
      · rcases ih x hx with h | h
        · exact Or.inl h
        · exact Or.inr (by simp only [keysOf, List.map_cons, List.mem_cons]; exact Or.inr h)

theorem nodup_keysOf_mapSet (m : CacheMap) (k : String) (v : CacheEntry)
    (h : (keysOf m).Nodup) : (keysOf (mapSet m k v)).Nodup := by
  induction m with
  | nil => simp [mapSet, keysOf]
  | cons p rest ih =>
    obtain ⟨k₀, v₀⟩ := p
    simp only [keysOf, List.map_cons, List.nodup_cons] at h
    rw [mapSet_cons]
    by_cases h₀ : k₀ = k
    · subst h₀
      rw [if_pos rfl]
      simp only [keysOf, List.map_cons, List.nodup_cons]
      exact ⟨h.1, h.2⟩
    · rw [if_neg h₀]
      simp only [keysOf, List.map_cons, List.nodup_cons]
      refine ⟨?_, ih h.2⟩
      intro hmem
      rcases mem_keysOf_mapSet rest k v k₀ (by simpa [keysOf] using hmem) with h' | h'
      · exact h₀ h'
      · exact h.1 (by simpa [keysOf] using h')

theorem keysOf_mapDelete_sublist (m : CacheMap) (k : String) :
    (keysOf (mapDelete m k)).Sublist (keysOf m) := by
  induction m with
  | nil => simp [mapDelete, keysOf]
  | cons p rest ih =>
    obtain ⟨k₀, v₀⟩ := p
    by_cases h₀ : k₀ = k
    · simpa [mapDelete, h₀, keysOf] using ih.cons k₀
    · simpa [mapDelete, h₀, keysOf] using ih.cons₂ k₀

theorem nodup_keysOf_mapDelete (m : CacheMap) (k : String)
    (h : (keysOf m).Nodup) : (keysOf (mapDelete m k)).Nodup :=
  List.Nodup.sublist (keysOf_mapDelete_sublist m k) h

theorem cacheInv_init : CacheInv initState := by
  constructor <;> simp [initState, keysOf, mapGet]

/-- In a state satisfying the invariant, a build registered to two keys is
impossible. -/
theorem builds_key_unique {s : SysState} (h : CacheInv s) {b : Nat}
    {k₁ k₂ : String} (h₁ : (b, k₁) ∈ s.builds) (h₂ : (b, k₂) ∈ s.builds) :
    k₁ = k₂ := by
  have := List.inj_on_of_nodup_map h.buildsNodup h₁ h₂ rfl
  exact congrArg Prod.snd this

/-! ## Step characterizations -/

theorem nodup_keysOf_cleanup (t : Nat) (m : CacheMap) (h : (keysOf m).Nodup) :
    (keysOf (cleanupNzbdavCache t m)).Nodup := by
  rw [cleanupNzbdavCache_eq]
  exact nodup_keysOf_cleanupPass t m h

theorem accessStep_hit (t : Nat) (key : String) (s : SysState) (e : CacheEntry)
    (h : mapGet (cleanupNzbdavCache t s.cache) key = some e) :
    (accessStep t key s).2 = { s with cache := cleanupNzbdavCache t s.cache } ∧
    (accessStep t key s).1 =
      (match e.status with
       | .ready d => .gotReady d
       | .pending b => .joined b
       | .failed err => .gotFailed err) := by
  obtain ⟨st, ex⟩ := e
  cases st <;> simp [accessStep, h]

theorem accessStep_miss (t : Nat) (key : String) (s : SysState)
    (h : mapGet (cleanupNzbdavCache t s.cache) key = none) :
    accessStep t key s =
      (.started s.nextBuild,
        { s with
          cache := mapSet (cleanupNzbdavCache t s.cache) key ⟨.pending s.nextBuild, none⟩
          nextBuild := s.nextBuild + 1
          builds := (s.nextBuild, key) :: s.builds }) := by
  simp [accessStep, h]

theorem cleanup_get_some {s : SysState} (h : CacheInv s) (t : Nat) (k : String)
    (e : CacheEntry) (hg : mapGet (cleanupNzbdavCache t s.cache) k = some e) :
    mapGet s.cache k = some e ∧ shouldEvict t e = false := by
  rw [mapGet_cleanup t s.cache k h.nodup] at hg
  cases hge : mapGet s.cache k with
  | none =>
    rw [hge] at hg
    exact Option.noConfusion hg
  | some e' =>
    rw [hge] at hg
    have hg' : (if shouldEvict t e' = true then none else some e') = some e := hg
    by_cases he : shouldEvict t e'
    · rw [if_pos he] at hg'
      exact Option.noConfusion hg'
    · rw [if_neg he] at hg'
      cases hg'
      exact ⟨rfl, Bool.eq_false_iff.2 he⟩

theorem cleanup_pending_kept {s : SysState} (h : CacheInv s) (t : Nat) (k : String)
    (e : CacheEntry) (b : Nat)
    (hg : mapGet s.cache k = some e) (hp : e.status = .pending b) :
    mapGet (cleanupNzbdavCache t s.cache) k = some e := by
  rw [mapGet_cleanup t s.cache k h.nodup, hg]
  have hexp : e.expiresAt = none := h.pendingNoExpiry k e b hg hp
  simp [shouldEvict, hexp]

theorem cleanup_none_no_pending {s : SysState} (h : CacheInv s) (t : Nat) (k : String)
    (hg : mapGet (cleanupNzbdavCache t s.cache) k = none) :
    ∀ e b, mapGet s.cache k = some e → e.status ≠ .pending b := by
  intro e b hge hp
  have := cleanup_pending_kept h t k e b hge hp
  rw [this] at hg
  exact Option.noConfusion hg

/-! ## Invariant preservation -/

theorem cacheInv_accessStep (t : Nat) (key : String) (s : SysState) (h : CacheInv s) :
    CacheInv (accessStep t key s).2 := by
  cases hg : mapGet (cleanupNzbdavCache t s.cache) key with
  | some e =>
    rw [(accessStep_hit t key s e hg).1]
    constructor
    · exact nodup_keysOf_cleanup t s.cache h.nodup
    · intro k e' b hg' hp
      exact h.pendingNoExpiry k e' b (cleanup_get_some h t k e' hg').1 hp
    · intro k e' b hg' hp
      exact h.pendingBuild k e' b (cleanup_get_some h t k e' hg').1 hp
    · intro k hnp b' hb
      refine h.noPendingAllCommitted k ?_ b' hb
      intro e' b hg' hp
      exact hnp e' b (cleanup_pending_kept h t k e' b hg' hp) hp
    · intro k e' hg' hnp
      exact h.terminalExpiry k e' (cleanup_get_some h t k e' hg').1 hnp
    · exact h.freshBuild
    · exact h.buildsNodup
    · exact h.committedStarted
  | none =>
    rw [accessStep_miss t key s hg]
    have hnd1 : (keysOf (cleanupNzbdavCache t s.cache)).Nodup :=
      nodup_keysOf_cleanup t s.cache h.nodup
    have hnb_notin : s.nextBuild ∉ s.committed := by
      intro hmem
      obtain ⟨k', hk'⟩ := h.committedStarted s.nextBuild hmem
      exact absurd (h.freshBuild s.nextBuild k' hk') (lt_irrefl _)
    constructor
    · exact nodup_keysOf_mapSet _ key _ hnd1
    · intro k e' b hg' hp
      rw [mapGet_mapSet] at hg'
      by_cases hk : key = k
      · rw [if_pos hk] at hg'
        cases hg'
        rfl
      · rw [if_neg hk] at hg'
        exact h.pendingNoExpiry k e' b (cleanup_get_some h t k e' hg').1 hp
    · intro k e' b hg' hp
      rw [mapGet_mapSet] at hg'
      by_cases hk : key = k
      · subst hk
        rw [if_pos rfl] at hg'
        cases hg'
        cases hp
        refine ⟨List.mem_cons_self _ _, hnb_notin, ?_⟩
        intro b' hb' hbne
        rcases List.mem_cons.1 hb' with h' | h'
        · exact absurd (congrArg Prod.fst h') hbne
        · exact h.noPendingAllCommitted key (cleanup_none_no_pending h t key hg) b' h'
      · rw [if_neg hk] at hg'
        obtain ⟨hmem, hnc, hall⟩ :=
          h.pendingBuild k e' b (cleanup_get_some h t k e' hg').1 hp
        refine ⟨List.mem_cons_of_mem _ hmem, hnc, ?_⟩
        intro b' hb' hbne
        rcases List.mem_cons.1 hb' with h' | h'
        · exact absurd (congrArg Prod.snd h').symm hk
        · exact hall b' h' hbne
    · intro k hnp b' hb'
      by_cases hk : key = k
      · subst hk
        exfalso
        refine hnp ⟨.pending s.nextBuild, none⟩ s.nextBuild ?_ rfl
        rw [mapGet_mapSet, if_pos rfl]
      · rcases List.mem_cons.1 hb' with h' | h'
        · exact absurd (congrArg Prod.snd h').symm hk
        · refine h.noPendingAllCommitted k ?_ b' h'
          intro e' b hg' hp
          refine hnp e' b ?_ hp
          rw [mapGet_mapSet, if_neg hk]
          exact cleanup_pending_kept h t k e' b hg' hp
    · intro k e' hg' hnp'
      rw [mapGet_mapSet] at hg'
      by_cases hk : key = k
      · rw [if_pos hk] at hg'
        cases hg'
        exact absurd rfl (hnp' s.nextBuild)
      · rw [if_neg hk] at hg'
        exact h.terminalExpiry k e' (cleanup_get_some h t k e' hg').1 hnp'
    · intro b k hb
      rcases List.mem_cons.1 hb with h' | h'
      · cases h'
        exact Nat.lt_succ_self _
      · exact Nat.lt_succ_of_lt (h.freshBuild b k h')
    · refine List.Nodup.cons ?_ h.buildsNodup
      intro hmem
      obtain ⟨⟨b', k'⟩, hmem', hfst⟩ := List.mem_map.1 hmem
      simp only at hfst
      rw [hfst] at hmem'
      exact absurd (h.freshBuild s.nextBuild k' hmem') (lt_irrefl _)
    · intro b hb
      obtain ⟨k', hk'⟩ := h.committedStarted b hb
      exact ⟨k', List.mem_cons_of_mem _ hk'⟩

theorem commit_target_pending {s : SysState} (h : CacheInv s) {key : String} {bid : Nat}
    (hb : (bid, key) ∈ s.builds) (hc : bid ∉ s.committed) :
    ∃ e, mapGet s.cache key = some e ∧ e.status = .pending bid := by
  by_cases hp : ∀ e b, mapGet s.cache key = some e → e.status ≠ .pending b
  · exact absurd (h.noPendingAllCommitted key hp bid hb) hc
  · push_neg at hp
    obtain ⟨e, b, hg, hpend⟩ := hp
    obtain ⟨hb', hnc', hall⟩ := h.pendingBuild key e b hg hpend
    by_cases hbe : bid = b
    · subst hbe
      exact ⟨e, hg, hpend⟩
    · exact absurd (hall bid hb hbe) hc

theorem cacheInv_commit_set (s : SysState) (h : CacheInv s) (key : String) (bid : Nat)
    (v : CacheEntry)
    (hvp : ∀ b, v.status ≠ .pending b)
    (hvT : ∃ T, v.expiresAt = some T ∧ NZBDAV_CACHE_TTL_MS ≤ T)
    (hb : (bid, key) ∈ s.builds) (hc : bid ∉ s.committed) :
    CacheInv { s with cache := mapSet s.cache key v, committed := bid :: s.committed } := by
  obtain ⟨ep, hgp, hpp⟩ := commit_target_pending h hb hc
  have hall := (h.pendingBuild key ep bid hgp hpp).2.2
  constructor
  · exact nodup_keysOf_mapSet _ key _ h.nodup
  · intro k e b hg hp
    rw [mapGet_mapSet] at hg
    by_cases hk : key = k
    · rw [if_pos hk] at hg
      cases hg
      exact absurd hp (hvp b)
    · rw [if_neg hk] at hg
      exact h.pendingNoExpiry k e b hg hp
  · intro k e b hg hp
    rw [mapGet_mapSet] at hg
    by_cases hk : key = k
    · rw [if_pos hk] at hg
      cases hg
      exact absurd hp (hvp b)
    · rw [if_neg hk] at hg
      obtain ⟨hmem, hnc, hall'⟩ := h.pendingBuild k e b hg hp
      refine ⟨hmem, ?_, ?_⟩
      · intro hmem'
        rcases List.mem_cons.1 hmem' with h' | h'
        · subst h'
          exact hk (builds_key_unique h hb hmem)
        · exact hnc h'
      · intro b' hb' hbne
        exact List.mem_cons_of_mem _ (hall' b' hb' hbne)
  · intro k hnp b' hb'
    by_cases hk : key = k
    · subst hk
      by_cases hbe : b' = bid
      · subst hbe
        exact List.mem_cons_self _ _
      · exact List.mem_cons_of_mem _ (hall b' hb' hbe)
    · refine List.mem_cons_of_mem _ ?_
      refine h.noPendingAllCommitted k ?_ b' hb'
      intro e b hg hp
      refine hnp e b ?_ hp
      rw [mapGet_mapSet, if_neg hk]
      exact hg
  · intro k e hg hnp'
    rw [mapGet_mapSet] at hg
    by_cases hk : key = k
    · rw [if_pos hk] at hg
      cases hg
      exact hvT
    · rw [if_neg hk] at hg
      exact h.terminalExpiry k e hg hnp'
  · exact h.freshBuild
  · exact h.buildsNodup
  · intro b hbc
    rcases List.mem_cons.1 hbc with h' | h'
    · subst h'
      exact ⟨key, hb⟩
    · exact h.committedStarted b h'

theorem cacheInv_commit_delete (s : SysState) (h : CacheInv s) (key : String) (bid : Nat)
    (hb : (bid, key) ∈ s.builds) (hc : bid ∉ s.committed) :
    CacheInv { s with cache := mapDelete s.cache key, committed := bid :: s.committed } := by
  obtain ⟨ep, hgp, hpp⟩ := commit_target_pending h hb hc
  have hall := (h.pendingBuild key ep bid hgp hpp).2.2
  constructor
  · exact nodup_keysOf_mapDelete _ key h.nodup
  · intro k e b hg hp
    rw [mapGet_mapDelete] at hg
    by_cases hk : key = k
    · rw [if_pos hk] at hg
      exact Option.noConfusion hg
    · rw [if_neg hk] at hg
      exact h.pendingNoExpiry k e b hg hp
  · intro k e b hg hp
    rw [mapGet_mapDelete] at hg
    by_cases hk : key = k
    · rw [if_pos hk] at hg
      exact Option.noConfusion hg
    · rw [if_neg hk] at hg
      obtain ⟨hmem, hnc, hall'⟩ := h.pendingBuild k e b hg hp
      refine ⟨hmem, ?_, ?_⟩
      · intro hmem'
        rcases List.mem_cons.1 hmem' with h' | h'
        · subst h'
          exact hk (builds_key_unique h hb hmem)
        · exact hnc h'
      · intro b' hb' hbne
        exact List.mem_cons_of_mem _ (hall' b' hb' hbne)
  · intro k hnp b' hb'
    by_cases hk : key = k
    · subst hk
      by_cases hbe : b' = bid
      · subst hbe
        exact List.mem_cons_self _ _
      · exact List.mem_cons_of_mem _ (hall b' hb' hbe)
    · refine List.mem_cons_of_mem _ ?_
      refine h.noPendingAllCommitted k ?_ b' hb'
      intro e b hg hp
      refine hnp e b ?_ hp
      rw [mapGet_mapDelete, if_neg hk]
      exact hg
  · intro k e hg hnp'
    rw [mapGet_mapDelete] at hg
    by_cases hk : key = k
    · rw [if_pos hk] at hg
      exact Option.noConfusion hg
    · rw [if_neg hk] at hg
      exact h.terminalExpiry k e hg hnp'
  · exact h.freshBuild
  · exact h.buildsNodup
  · intro b hbc
    rcases List.mem_cons.1 hbc with h' | h'
    · subst h'
      exact ⟨key, hb⟩
    · exact h.committedStarted b h'

theorem cacheInv_commitStep (t : Nat) (key : String) (bid : Nat) (o : BuildOutcome)
    (s : SysState) (h : CacheInv s)
    (hb : (bid, key) ∈ s.builds) (hc : bid ∉ s.committed) :
    CacheInv (commitStep t key bid o s) := by
  cases o with
  | ok d =>
    show CacheInv { s with cache := mapSet s.cache key _, committed := bid :: s.committed }
    refine cacheInv_commit_set s h key bid _ ?_ ?_ hb hc
    · intro b hp
      exact EntryStatus.noConfusion hp
    · exact ⟨t + NZBDAV_CACHE_TTL_MS, commitExpiry_eq t, Nat.le_add_left _ _⟩
  | err e =>
    by_cases hf : e.isNzbdavFailure
    · show CacheInv (if e.isNzbdavFailure then _ else _)
      rw [if_pos hf]
      refine cacheInv_commit_set s h key bid _ ?_ ?_ hb hc
      · intro b hp
        exact EntryStatus.noConfusion hp
      · exact ⟨t + NZBDAV_CACHE_TTL_MS, commitExpiry_eq t, Nat.le_add_left _ _⟩
    · show CacheInv (if e.isNzbdavFailure then _ else _)
      rw [if_neg hf]
      exact cacheInv_commit_delete s h key bid hb hc

theorem evValid_commit_iff (s : SysState) (t : Nat) (key : String) (bid : Nat)
    (o : BuildOutcome) :
    evValid s (.commit t key bid o) = true ↔
      (bid, key) ∈ s.builds ∧ bid ∉ s.committed := by
  simp [evValid]

theorem cacheInv_stepEv (s : SysState) (ev : CacheEv) (h : CacheInv s)
    (hv : evValid s ev = true) : CacheInv (stepEv s ev) := by
  cases ev with
  | access t key => exact cacheInv_accessStep t key s h
  | commit t key bid o =>
    rw [evValid_commit_iff] at hv
    exact cacheInv_commitStep t key bid o s h hv.1 hv.2

theorem cacheInv_runTrace : ∀ (evs : List CacheEv) (s : SysState), CacheInv s →
    traceValid s evs = true → CacheInv (runTrace s evs)
  | [], s, h, _ => h
  | ev :: evs, s, h, hv => by
    simp only [traceValid, Bool.and_eq_true] at hv
    exact cacheInv_runTrace evs _ (cacheInv_stepEv s ev h hv.1) hv.2

theorem reachable_inv {s : SysState} (h : Reachable s) : CacheInv s := by
  obtain ⟨evs, hv, hr⟩ := h
  rw [← hr]
  exact cacheInv_runTrace evs initState cacheInv_init hv

/-! ## Single-flight lemmas -/

theorem accessStep_nodup (t : Nat) (key : String) (s : SysState)
    (hnd : (keysOf s.cache).Nodup) :
    (keysOf (accessStep t key s).2.cache).Nodup := by
  cases hg : mapGet (cleanupNzbdavCache t s.cache) key with
  | some e =>
    rw [(accessStep_hit t key s e hg).1]
    exact nodup_keysOf_cleanup t _ hnd
  | none =>
    rw [accessStep_miss t key s hg]
    exact nodup_keysOf_mapSet _ _ _ (nodup_keysOf_cleanup t _ hnd)

theorem runAccesses_nodup (key : String) :
    ∀ (ts : List Nat) (s : SysState), (keysOf s.cache).Nodup →
      (keysOf (runAccesses key s ts).2.cache).Nodup
  | [], s, hnd => by simpa [runAccesses] using hnd
  | t :: ts, s, hnd => by
    simp only [runAccesses]
    exact runAccesses_nodup key ts _ (accessStep_nodup t key s hnd)

theorem accessStep_pending (t : Nat) (key : String) (s : SysState) (b : Nat)
    (hnd : (keysOf s.cache).Nodup)
    (hg : mapGet s.cache key = some ⟨.pending b, none⟩) :
    (accessStep t key s).1 = .joined b ∧
    (accessStep t key s).2.nextBuild = s.nextBuild ∧
    mapGet (accessStep t key s).2.cache key = some ⟨.pending b, none⟩ ∧
    (keysOf (accessStep t key s).2.cache).Nodup := by
  have hkeep : mapGet (cleanupNzbdavCache t s.cache) key = some ⟨.pending b, none⟩ := by
    rw [mapGet_cleanup t s.cache key hnd, hg]
    simp [shouldEvict]
  obtain ⟨h2, h1⟩ := accessStep_hit t key s _ hkeep
  refine ⟨by rw [h1], by rw [h2], ?_, accessStep_nodup t key s hnd⟩
  rw [h2]
  exact hkeep

theorem runAccesses_pending (key : String) (b : Nat) :
    ∀ (ts : List Nat) (s : SysState),
      (keysOf s.cache).Nodup →
      mapGet s.cache key = some ⟨.pending b, none⟩ →
      (∀ a ∈ (runAccesses key s ts).1, a = .joined b) ∧
      (runAccesses key s ts).2.nextBuild = s.nextBuild ∧
      mapGet (runAccesses key s ts).2.cache key = some ⟨.pending b, none⟩ ∧
      (keysOf (runAccesses key s ts).2.cache).Nodup
  | [], s, hnd, hg =>
    ⟨by simp [runAccesses], by simp [runAccesses],
      by simpa [runAccesses] using hg, by simpa [runAccesses] using hnd⟩
  | t :: ts, s, hnd, hg => by
    obtain ⟨ha, hnb, hgkeep, hndkeep⟩ := accessStep_pending t key s b hnd hg
    have ih := runAccesses_pending key b ts (accessStep t key s).2 hndkeep hgkeep
    simp only [runAccesses]
    refine ⟨?_, ?_, ih.2.2.1, ih.2.2.2⟩
    · intro a hain
      rcases List.mem_cons.1 hain with h' | h'
      · rw [h']
        exact ha
      · exact ih.1 a h'
    · rw [ih.2.1, hnb]

/-- Claim C1 (single-flight memoization): starting from any reachable state in
which the key misses (after lazy eviction at the first arrival's time), a row
of N ≥ 1 concurrent accesses on that key — all arriving before the build
commits — starts exactly one build: the first caller installs one pending
entry and starts build `s.nextBuild`, every later caller joins that same
build's promise, so every caller observes the identical outcome of that one
build, the counter of started pipelines rises by exactly one, and the cache
map keeps at most one entry per key throughout any row of accesses. -/
theorem c1_single_flight (s : SysState) (key : String) (t₀ : Nat) (ts : List Nat)
    (hs : Reachable s)
    (hmiss : mapGet (cleanupNzbdavCache t₀ s.cache) key = none) :
    (runAccesses key s (t₀ :: ts)).1.head? = some (.started s.nextBuild) ∧
    (∀ a ∈ (runAccesses key s (t₀ :: ts)).1,
       a = .started s.nextBuild ∨ a = .joined s.nextBuild) ∧
    (∀ deliver : Nat → BuildOutcome, ∀ a ∈ (runAccesses key s (t₀ :: ts)).1,
       observedOutcome deliver a = deliver s.nextBuild) ∧
    (runAccesses key s (t₀ :: ts)).2.nextBuild = s.nextBuild + 1 ∧
    mapGet (runAccesses key s (t₀ :: ts)).2.cache key =
      some ⟨.pending s.nextBuild, none⟩ ∧
    (∀ ts' : List Nat, (keysOf (runAccesses key s ts').2.cache).Nodup) := by
  have hinv := reachable_inv hs
  have hstep := accessStep_miss t₀ key s hmiss
  have hnd1 : (keysOf (accessStep t₀ key s).2.cache).Nodup :=
    accessStep_nodup t₀ key s hinv.nodup
  have hg1 : mapGet (accessStep t₀ key s).2.cache key =
      some ⟨.pending s.nextBuild, none⟩ := by
    rw [hstep]
    show mapGet (mapSet (cleanupNzbdavCache t₀ s.cache) key
      ⟨.pending s.nextBuild, none⟩) key = _
    rw [mapGet_mapSet, if_pos rfl]
  have hnb1 : (accessStep t₀ key s).2.nextBuild = s.nextBuild + 1 := by rw [hstep]
  have hr1 : (accessStep t₀ key s).1 = .started s.nextBuild := by rw [hstep]
  obtain ⟨hall, hnb2, hg2, hnd2⟩ :=
    runAccesses_pending key s.nextBuild ts (accessStep t₀ key s).2 hnd1 hg1
  simp only [runAccesses]
  refine ⟨?_, ?_, ?_, ?_, hg2, ?_⟩
  · simp [hr1]
  · intro a ha
    rcases List.mem_cons.1 ha with h' | h'
    · rw [h', hr1]
      exact Or.inl rfl
    · exact Or.inr (hall a h')
  · intro deliver a ha
    rcases List.mem_cons.1 ha with h' | h'
    · rw [h', hr1]
      rfl
    · rw [hall a h']
      rfl
  · rw [hnb2, hnb1]
  · intro ts'
    exact runAccesses_nodup key ts' s hinv.nodup

theorem c1_single_flight_witness :
    Reachable initState ∧
    mapGet (cleanupNzbdavCache 0 initState.cache) "k" = none ∧
    (∀ a ∈ (runAccesses "k" initState [0, 1, 2]).1,
        a = .started 0 ∨ a = .joined 0) ∧
    (runAccesses "k" initState [0, 1, 2]).2.nextBuild = 0 + 1 := by
  have h₀ : Reachable initState := ⟨[], rfl, rfl⟩
  have h₁ : mapGet (cleanupNzbdavCache 0 initState.cache) "k" = none := by decide
  have h := c1_single_flight initState "k" 0 [1, 2] h₀ h₁
  exact ⟨h₀, h₁, h.2.1, h.2.2.2.1⟩

/-! ## Commit-effect lemmas -/

theorem commitStep_cache_other (t : Nat) (k' key : String) (bid : Nat)
    (o : BuildOutcome) (s : SysState) (hk : ¬k' = key) :
    mapGet (commitStep t k' bid o s).cache key = mapGet s.cache key := by
  cases o with
  | ok d => simp [commitStep, mapGet_mapSet, hk]
  | err e =>
    by_cases hf : e.isNzbdavFailure <;>
      simp [commitStep, hf, mapGet_mapSet, mapGet_mapDelete, hk]

theorem commitStep_ok_get (t : Nat) (key : String) (bid : Nat) (d : StreamData)
    (s : SysState) :
    mapGet (commitStep t key bid (.ok d) s).cache key =
      some ⟨.ready d, some (t + NZBDAV_CACHE_TTL_MS)⟩ := by
  show mapGet (mapSet s.cache key _) key = _
  rw [mapGet_mapSet, if_pos rfl, commitExpiry_eq]

theorem commitStep_errFail_get (t : Nat) (key : String) (bid : Nat) (e : NzbError)
    (s : SysState) (hf : e.isNzbdavFailure = true) :
    mapGet (commitStep t key bid (.err e) s).cache key =
      some ⟨.failed e, some (t + NZBDAV_CACHE_TTL_MS)⟩ := by
  simp only [commitStep, hf, if_true]
  rw [mapGet_mapSet, if_pos rfl, commitExpiry_eq]

theorem commitStep_errOther_get (t : Nat) (key : String) (bid : Nat) (e : NzbError)
    (s : SysState) (hf : e.isNzbdavFailure = false) :
    mapGet (commitStep t key bid (.err e) s).cache key = none := by
  simp only [commitStep, hf, Bool.false_eq_true, if_false]
  rw [mapGet_mapDelete, if_pos rfl]

theorem commitStep_nodup (t : Nat) (key : String) (bid : Nat) (o : BuildOutcome)
    (s : SysState) (hnd : (keysOf s.cache).Nodup) :
    (keysOf (commitStep t key bid o s).cache).Nodup := by
  cases o with
  | ok d => exact nodup_keysOf_mapSet _ _ _ hnd
  | err e =>
    by_cases hf : e.isNzbdavFailure
    · simp only [commitStep, hf, if_true]
      exact nodup_keysOf_mapSet _ _ _ hnd
    · simp only [commitStep, hf, Bool.false_eq_true, if_false]
      exact nodup_keysOf_mapDelete _ _ hnd

/-- Claim C2 (cache-poisoning selectivity): when the builder promise of a
live build settles with an error, the commit caches the error as a `failed`
entry exactly when the error is an explicit job failure (`isNzbdavFailure`):
then every subsequent access on the key before TTL expiry re-throws that
very error without starting a new pipeline.  Any other error deletes the
entry, so the very next access on the key is a miss that starts the full
pipeline again. -/
theorem c2_cache_poisoning_selectivity (s : SysState) (key : String) (bid : Nat)
    (e : NzbError) (t : Nat)
    (hs : Reachable s)
    (hv : evValid s (.commit t key bid (.err e)) = true) :
    (e.isNzbdavFailure = true →
      mapGet (commitStep t key bid (.err e) s).cache key =
        some ⟨.failed e, some (t + NZBDAV_CACHE_TTL_MS)⟩ ∧
      ∀ t', t' < t + NZBDAV_CACHE_TTL_MS →
        (accessStep t' key (commitStep t key bid (.err e) s)).1 = .gotFailed e ∧
        (accessStep t' key (commitStep t key bid (.err e) s)).2.nextBuild =
          (commitStep t key bid (.err e) s).nextBuild) ∧
    (e.isNzbdavFailure = false →
      mapGet (commitStep t key bid (.err e) s).cache key = none ∧
      ∀ t',
        (accessStep t' key (commitStep t key bid (.err e) s)).1 =
          .started (commitStep t key bid (.err e) s).nextBuild ∧
        (accessStep t' key (commitStep t key bid (.err e) s)).2.nextBuild =
          (commitStep t key bid (.err e) s).nextBuild + 1) := by
  have hinv := reachable_inv hs
  rw [evValid_commit_iff] at hv
  have hinv' := cacheInv_commitStep t key bid (.err e) s hinv hv.1 hv.2
  constructor
  · intro hf
    have hget := commitStep_errFail_get t key bid e s hf
    refine ⟨hget, ?_⟩
    intro t' ht'
    have hsev : shouldEvict t'
        (⟨.failed e, some (t + NZBDAV_CACHE_TTL_MS)⟩ : CacheEntry) = false := by
      simp only [shouldEvict, Bool.and_eq_false_iff, decide_eq_false_iff_not]
      right
      omega
    have hkeep : mapGet
        (cleanupNzbdavCache t' (commitStep t key bid (.err e) s).cache) key =
        some ⟨.failed e, some (t + NZBDAV_CACHE_TTL_MS)⟩ := by
      rw [mapGet_cleanup t' _ key hinv'.nodup, hget]
      simp [hsev]
    obtain ⟨h2, h1⟩ := accessStep_hit t' key _ _ hkeep
    exact ⟨by rw [h1], by rw [h2]⟩
  · intro hf
    have hget := commitStep_errOther_get t key bid e s hf
    refine ⟨hget, ?_⟩
    intro t'
    have hmiss : mapGet
        (cleanupNzbdavCache t' (commitStep t key bid (.err e) s).cache) key = none := by
      rw [mapGet_cleanup t' _ key hinv'.nodup, hget]
    have hstep := accessStep_miss t' key _ hmiss
    exact ⟨by rw [hstep], by rw [hstep]⟩

theorem c2_cache_poisoning_selectivity_witness :
    Reachable (stepEv initState (.access 0 "k")) ∧
    evValid (stepEv initState (.access 0 "k")) (.commit 5 "k" 0 (.err sampleFailure)) = true ∧
    mapGet (commitStep 5 "k" 0 (.err sampleFailure)
        (stepEv initState (.access 0 "k"))).cache "k" =
      some ⟨.failed sampleFailure, some (5 + NZBDAV_CACHE_TTL_MS)⟩ ∧
    Reachable (stepEv initState (.access 0 "q")) ∧
    evValid (stepEv initState (.access 0 "q")) (.commit 5 "q" 0 (.err sampleTimeout)) = true ∧
    mapGet (commitStep 5 "q" 0 (.err sampleTimeout)
        (stepEv initState (.access 0 "q"))).cache "q" = none := by
  have h₀ : Reachable (stepEv initState (.access 0 "k")) :=
    ⟨[.access 0 "k"], rfl, rfl⟩
  have h₁ : evValid (stepEv initState (.access 0 "k"))
      (.commit 5 "k" 0 (.err sampleFailure)) = true := by decide
  have h₂ : Reachable (stepEv initState (.access 0 "q")) :=
    ⟨[.access 0 "q"], rfl, rfl⟩
  have h₃ : evValid (stepEv initState (.access 0 "q"))
      (.commit 5 "q" 0 (.err sampleTimeout)) = true := by decide
  refine ⟨h₀, h₁, ?_, h₂, h₃, ?_⟩
  · exact ((c2_cache_poisoning_selectivity _ "k" 0 sampleFailure 5 h₀ h₁).1 rfl).1
  · exact ((c2_cache_poisoning_selectivity _ "q" 0 sampleTimeout 5 h₂ h₃).2 rfl).1

theorem cleanup_get_not_evict (t : Nat) (m : CacheMap) (k : String) (e : CacheEntry)
    (hnd : (keysOf m).Nodup)
    (hg : mapGet (cleanupNzbdavCache t m) k = some e) :
    mapGet m k = some e ∧ shouldEvict t e = false := by
  rw [mapGet_cleanup t m k hnd] at hg
  cases hge : mapGet m k with
  | none =>
    rw [hge] at hg
    exact Option.noConfusion hg
  | some e' =>
    rw [hge] at hg
    have hg' : (if shouldEvict t e' = true then none else some e') = some e := hg
    by_cases he : shouldEvict t e'
    · rw [if_pos he] at hg'
      exact Option.noConfusion hg'
    · rw [if_neg he] at hg'
      cases hg'
      exact ⟨rfl, Bool.eq_false_iff.2 he⟩

/-- Claim C7 (lazy TTL eviction): (1) every cache access first performs lazy
eviction, so right after any access no entry whose `expiresAt` has passed
remains; (2,3) `ready` and `failed` commits install the same TTL-derived
`expiresAt = commitTime + NZBDAV_CACHE_TTL_MS`; (4) a `ready` entry accessed
at or after its `expiresAt` is evicted and a fresh pipeline run starts;
(5) accessed before expiry it returns the memoized data with no new build;
(6) a committed (`ready`/`failed`) entry is never mutated by any valid event:
it either survives exactly unchanged or is removed by lazy TTL eviction at an
access whose time has passed the entry's `expiresAt`. -/
theorem c7_lazy_ttl_eviction :
    (∀ (s : SysState) (t : Nat) (key : String), Reachable s →
       ∀ k e, mapGet (accessStep t key s).2.cache k = some e →
         shouldEvict t e = false) ∧
    (∀ (s : SysState) (t : Nat) (key : String) (bid : Nat) (d : StreamData),
       Reachable s →
       mapGet (commitStep t key bid (.ok d) s).cache key =
         some ⟨.ready d, some (t + NZBDAV_CACHE_TTL_MS)⟩) ∧
    (∀ (s : SysState) (t : Nat) (key : String) (bid : Nat) (e : NzbError),
       Reachable s → e.isNzbdavFailure = true →
       mapGet (commitStep t key bid (.err e) s).cache key =
         some ⟨.failed e, some (t + NZBDAV_CACHE_TTL_MS)⟩) ∧
    (∀ (s : SysState) (key : String) (d : StreamData) (T t : Nat),
       Reachable s → mapGet s.cache key = some ⟨.ready d, some T⟩ → T ≤ t →
       (accessStep t key s).1 = .started s.nextBuild ∧
       (accessStep t key s).2.nextBuild = s.nextBuild + 1) ∧
    (∀ (s : SysState) (key : String) (d : StreamData) (T t : Nat),
       Reachable s → mapGet s.cache key = some ⟨.ready d, some T⟩ → t < T →
       (accessStep t key s).1 = .gotReady d ∧
       (accessStep t key s).2.nextBuild = s.nextBuild ∧
       mapGet (accessStep t key s).2.cache key = some ⟨.ready d, some T⟩) ∧
    (∀ (s : SysState) (key : String) (e : CacheEntry) (ev : CacheEv),
       Reachable s → mapGet s.cache key = some e →
       (∀ b, e.status ≠ .pending b) → evValid s ev = true →
       mapGet (stepEv s ev).cache key = some e ∨
         ∃ t k', ev = .access t k' ∧ shouldEvict t e = true) := by
  refine ⟨?_, ?_, ?_, ?_, ?_, ?_⟩
  · intro s t key hs k e hg
    have hinv := reachable_inv hs
    cases hg0 : mapGet (cleanupNzbdavCache t s.cache) key with
    | some e0 =>
      rw [(accessStep_hit t key s e0 hg0).1] at hg
      have hgc : mapGet (cleanupNzbdavCache t s.cache) k = some e := hg
      exact (cleanup_get_not_evict t s.cache k e hinv.nodup hgc).2
    | none =>
      rw [accessStep_miss t key s hg0] at hg
      have hg' : mapGet (mapSet (cleanupNzbdavCache t s.cache) key
          ⟨.pending s.nextBuild, none⟩) k = some e := hg
      rw [mapGet_mapSet] at hg'
      by_cases hk : key = k
      · rw [if_pos hk] at hg'
        cases hg'
        rfl
      · rw [if_neg hk] at hg'
        exact (cleanup_get_not_evict t s.cache k e hinv.nodup hg').2
  · intro s t key bid d hs
    exact commitStep_ok_get t key bid d s
  · intro s t key bid e hs hf
    exact commitStep_errFail_get t key bid e s hf
  · intro s key d T t hs hg hT
    have hinv := reachable_inv hs
    obtain ⟨T', hT'eq, hTTL⟩ := hinv.terminalExpiry key _ hg
      (fun b hb => EntryStatus.noConfusion hb)
    have hT'T : some T = some T' := hT'eq
    cases hT'T
    have hsev : shouldEvict t (⟨.ready d, some T⟩ : CacheEntry) = true := by
      simp only [shouldEvict, Bool.and_eq_true, decide_eq_true_eq]
      have h1 := ttl_pos
      constructor
      · omega
      · exact hT
    have hmiss : mapGet (cleanupNzbdavCache t s.cache) key = none := by
      rw [mapGet_cleanup t s.cache key hinv.nodup, hg]
      simp [hsev]
    have hstep := accessStep_miss t key s hmiss
    exact ⟨by rw [hstep], by rw [hstep]⟩
  · intro s key d T t hs hg hT
    have hinv := reachable_inv hs
    have hsev : shouldEvict t (⟨.ready d, some T⟩ : CacheEntry) = false := by
      simp only [shouldEvict, Bool.and_eq_false_iff, decide_eq_false_iff_not]
      right
      omega
    have hkeep : mapGet (cleanupNzbdavCache t s.cache) key =
        some ⟨.ready d, some T⟩ := by
      rw [mapGet_cleanup t s.cache key hinv.nodup, hg]
      simp [hsev]
    obtain ⟨h2, h1⟩ := accessStep_hit t key s _ hkeep
    refine ⟨by rw [h1], by rw [h2], ?_⟩
    rw [h2]
    exact hkeep
  · intro s key e ev hs hg hnp hv
    have hinv := reachable_inv hs
    cases ev with
    | access t k' =>
      by_cases hev : shouldEvict t e
      · exact Or.inr ⟨t, k', rfl, hev⟩
      · left
        show mapGet (accessStep t k' s).2.cache key = some e
        have hkeep : mapGet (cleanupNzbdavCache t s.cache) key = some e := by
          rw [mapGet_cleanup t s.cache key hinv.nodup, hg]
          simp [hev]
        cases hg0 : mapGet (cleanupNzbdavCache t s.cache) k' with
        | some e0 =>
          rw [(accessStep_hit t k' s e0 hg0).1]
          exact hkeep
        | none =>
          rw [accessStep_miss t k' s hg0]
          show mapGet (mapSet (cleanupNzbdavCache t s.cache) k'
            ⟨.pending s.nextBuild, none⟩) key = some e
          rw [mapGet_mapSet]
          have hkne : ¬k' = key := by
            intro hkk
            rw [hkk] at hg0
            rw [hg0] at hkeep
            exact Option.noConfusion hkeep
          rw [if_neg hkne]
          exact hkeep
    | commit t k' bid o =>
      left
      rw [evValid_commit_iff] at hv
      by_cases hk : k' = key
      · exfalso
        subst hk
        obtain ⟨ep, hgp, hpp⟩ := commit_target_pending hinv hv.1 hv.2
        rw [hg] at hgp
        cases hgp
        exact hnp bid hpp
      · show mapGet (commitStep t k' bid o s).cache key = some e
        rw [commitStep_cache_other t k' key bid o s hk]
        exact hg

theorem c7_lazy_ttl_eviction_witness :
    Reachable (runTrace initState [.access 0 "k", .commit 1 "k" 0 (.ok sampleData)]) ∧
    mapGet (runTrace initState
        [.access 0 "k", .commit 1 "k" 0 (.ok sampleData)]).cache "k" =
      some ⟨.ready sampleData, some (1 + NZBDAV_CACHE_TTL_MS)⟩ ∧
    (1 + NZBDAV_CACHE_TTL_MS ≤ 1 + NZBDAV_CACHE_TTL_MS) ∧ (2 < 1 + NZBDAV_CACHE_TTL_MS) ∧
    (accessStep (1 + NZBDAV_CACHE_TTL_MS) "k"
        (runTrace initState [.access 0 "k", .commit 1 "k" 0 (.ok sampleData)])).1 =
      .started (runTrace initState
        [.access 0 "k", .commit 1 "k" 0 (.ok sampleData)]).nextBuild ∧
    (accessStep 2 "k"
        (runTrace initState [.access 0 "k", .commit 1 "k" 0 (.ok sampleData)])).1 =
      .gotReady sampleData := by
  have hre : Reachable (runTrace initState
      [.access 0 "k", .commit 1 "k" 0 (.ok sampleData)]) :=
    ⟨[.access 0 "k", .commit 1 "k" 0 (.ok sampleData)], by decide, rfl⟩
  have hget : mapGet (runTrace initState
      [.access 0 "k", .commit 1 "k" 0 (.ok sampleData)]).cache "k" =
      some ⟨.ready sampleData, some (1 + NZBDAV_CACHE_TTL_MS)⟩ := by decide
  have hle : 1 + NZBDAV_CACHE_TTL_MS ≤ 1 + NZBDAV_CACHE_TTL_MS := le_refl _
  have hlt : 2 < 1 + NZBDAV_CACHE_TTL_MS := by norm_num [NZBDAV_CACHE_TTL_MS]
  refine ⟨hre, hget, hle, hlt, ?_, ?_⟩
  · exact (c7_lazy_ttl_eviction.2.2.2.1 _ "k" sampleData _ _ hre hget hle).1
  · exact (c7_lazy_ttl_eviction.2.2.2.2.1 _ "k" sampleData _ 2 hre hget hlt).1

/-- Claim C10 (pending entries are protected): a pending cache entry carries
no `expiresAt`, so lazy eviction never removes it; no access on any key can
evict or overwrite it (an access on its own key just joins the in-flight
promise); the only valid commit event targeting its key is its own build's
commit; commits on other keys leave it untouched; and its own commit
replaces it by `ready` on success, by `failed` exactly when the error is an
explicit job failure, and deletes it on any other error. -/
theorem c10_pending_entry_protection (s : SysState) (key : String) (b : Nat)
    (e : CacheEntry)
    (hs : Reachable s) (hg : mapGet s.cache key = some e)
    (hp : e.status = .pending b) :
    e.expiresAt = none ∧
    (∀ t, mapGet (cleanupNzbdavCache t s.cache) key = some e) ∧
    (∀ t k', mapGet ((accessStep t k' s).2).cache key = some e) ∧
    (∀ t bid o, evValid s (.commit t key bid o) = true → bid = b) ∧
    (∀ t k' bid o, ¬k' = key →
       mapGet (commitStep t k' bid o s).cache key = some e) ∧
    (∀ t o, mapGet (commitStep t key b o s).cache key =
       match o with
       | .ok d => some ⟨.ready d, some (t + NZBDAV_CACHE_TTL_MS)⟩
       | .err er => if er.isNzbdavFailure then
           some ⟨.failed er, some (t + NZBDAV_CACHE_TTL_MS)⟩ else none) := by
  have hinv := reachable_inv hs
  have hexp : e.expiresAt = none := hinv.pendingNoExpiry key e b hg hp
  have hkeep : ∀ t, mapGet (cleanupNzbdavCache t s.cache) key = some e :=
    fun t => cleanup_pending_kept hinv t key e b hg hp
  refine ⟨hexp, hkeep, ?_, ?_, ?_, ?_⟩
  · intro t k'
    cases hg0 : mapGet (cleanupNzbdavCache t s.cache) k' with
    | some e0 =>
      rw [(accessStep_hit t k' s e0 hg0).1]
      exact hkeep t
    | none =>
      rw [accessStep_miss t k' s hg0]
      show mapGet (mapSet (cleanupNzbdavCache t s.cache) k'
        ⟨.pending s.nextBuild, none⟩) key = some e
      rw [mapGet_mapSet]
      have hkne : ¬k' = key := by
        intro hkk
        rw [hkk] at hg0
        rw [hkeep t] at hg0
        exact Option.noConfusion hg0
      rw [if_neg hkne]
      exact hkeep t
  · intro t bid o hv
    rw [evValid_commit_iff] at hv
    obtain ⟨ep, hgp, hpp⟩ := commit_target_pending hinv hv.1 hv.2
    rw [hg] at hgp
    cases hgp
    rw [hp] at hpp
    injection hpp with h
    exact h.symm
  · intro t k' bid o hk
    rw [commitStep_cache_other t k' key bid o s hk]
    exact hg
  · intro t o
    cases o with
    | ok d => exact commitStep_ok_get t key b d s
    | err er =>
      by_cases hf : er.isNzbdavFailure
      · rw [commitStep_errFail_get t key b er s hf]
        simp [hf]
      · rw [commitStep_errOther_get t key b er s (Bool.eq_false_iff.2 hf)]
        simp [hf]

theorem c10_pending_entry_protection_witness :
    Reachable (stepEv initState (.access 0 "k")) ∧
    mapGet (stepEv initState (.access 0 "k")).cache "k" =
      some ⟨.pending 0, none⟩ ∧
    (⟨EntryStatus.pending 0, none⟩ : CacheEntry).status = .pending 0 ∧
    (∀ t, mapGet (cleanupNzbdavCache t (stepEv initState (.access 0 "k")).cache) "k" =
      some ⟨.pending 0, none⟩) ∧
    mapGet ((accessStep 99 "other" (stepEv initState (.access 0 "k"))).2).cache "k" =
      some ⟨.pending 0, none⟩ := by
  have h₀ : Reachable (stepEv initState (.access 0 "k")) :=
    ⟨[.access 0 "k"], rfl, rfl⟩
  have h₁ : mapGet (stepEv initState (.access 0 "k")).cache "k" =
      some ⟨.pending 0, none⟩ := by decide
  have h := c10_pending_entry_protection (stepEv initState (.access 0 "k"))
    "k" 0 ⟨.pending 0, none⟩ h₀ h₁ rfl
  exact ⟨h₀, h₁, rfl, h.2.1, h.2.2.1 99 "other"⟩

/-! ## Range semantics (claim C3) -/

theorem jsFiniteDigits_of_lt (l : List Char) (h : digitsToNat l < 2 ^ 53) :
    jsFiniteDigits l = true := by
  have hlt : digitsToNat l < 2 ^ 1024 :=
    lt_of_lt_of_le h (Nat.pow_le_pow_right (by norm_num) (by norm_num))
  simpa [jsFiniteDigits] using hlt

theorem parsedStart_eq (ds : List Char) (hne : ds ≠ [])
    (h : digitsToNat ds < 2 ^ 53) :
    parsedStart ds = (digitsToNat ds : Int) := by
  unfold parsedStart
  rw [if_pos ⟨hne, jsFiniteDigits_of_lt ds h⟩]

theorem parsedEnd_eq (de : List Char) (S : Int) (hne : de ≠ [])
    (h : digitsToNat de < 2 ^ 53) :
    parsedEnd de S = (digitsToNat de : Int) := by
  unfold parsedEnd
  rw [if_pos ⟨hne, jsFiniteDigits_of_lt de h⟩]

/-- Claim C3 (range semantics of the file-serving path): for a file of size
`S ≥ 1` on a non-HEAD request, a header matching `bytes=<start>-<end>`
(values below 2^53, where JS `parseInt` is exact) gives: `start ≥ S` →
`416` with `Content-Range: bytes */S` and no body; an `end` beyond the file
or below `start` is clamped to `S-1` in a `206`; an in-bounds range gives
`206` with exact `Content-Range`, `Content-Length = end-start+1` and that
many body bytes; a missing or non-matching header is ignored: `200` with
`Content-Length = S` and the full body. -/
theorem c3_range_semantics (S : Int) (hS : 1 ≤ S) :
    (∀ h ds de, rangeRegexMatch h = some (ds, de) → ds ≠ [] →
      (digitsToNat ds : Int) < 2 ^ 53 → (digitsToNat de : Int) < 2 ^ 53 →
      ((S ≤ (digitsToNat ds : Int) →
         streamFileResponse false (some h) S =
           ⟨416, some ("bytes */" ++ toString S), none, 0⟩) ∧
       ((digitsToNat ds : Int) < S → de ≠ [] →
         (S ≤ (digitsToNat de : Int) ∨
           (digitsToNat de : Int) < (digitsToNat ds : Int)) →
         streamFileResponse false (some h) S =
           ⟨206, some ("bytes " ++ toString ((digitsToNat ds : Nat) : Int) ++ "-" ++
               toString (S - 1) ++ "/" ++ toString S),
             some (S - 1 - (digitsToNat ds : Int) + 1),
             S - 1 - (digitsToNat ds : Int) + 1⟩) ∧
       (de ≠ [] → (digitsToNat ds : Int) ≤ (digitsToNat de : Int) →
         (digitsToNat de : Int) < S →
         streamFileResponse false (some h) S =
           ⟨206, some ("bytes " ++ toString ((digitsToNat ds : Nat) : Int) ++ "-" ++
               toString ((digitsToNat de : Nat) : Int) ++ "/" ++ toString S),
             some ((digitsToNat de : Int) - (digitsToNat ds : Int) + 1),
             (digitsToNat de : Int) - (digitsToNat ds : Int) + 1⟩))) ∧
    streamFileResponse false none S = ⟨200, none, some S, S⟩ ∧
    (∀ h, rangeRegexMatch h = none →
      streamFileResponse false (some h) S = ⟨200, none, some S, S⟩) := by
  refine ⟨?_, ?_, ?_⟩
  · intro h ds de hm hds hlds hlde
    have hlds' : digitsToNat ds < 2 ^ 53 := by exact_mod_cast hlds
    have hlde' : digitsToNat de < 2 ^ 53 := by exact_mod_cast hlde
    refine ⟨?_, ?_, ?_⟩
    · intro h416
      show rangeResponseCore (rangeRegexMatch h) S = _
      rw [hm]
      show rangeResponse (parsedStart ds) (parsedEnd de S) S = _
      rw [parsedStart_eq ds hds hlds']
      unfold rangeResponse
      rw [if_pos h416]
    · intro hlt hdne hclamp
      show rangeResponseCore (rangeRegexMatch h) S = _
      rw [hm]
      show rangeResponse (parsedStart ds) (parsedEnd de S) S = _
      rw [parsedStart_eq ds hds hlds', parsedEnd_eq de S hdne hlde']
      unfold rangeResponse
      rw [if_neg (by omega : ¬S ≤ ((digitsToNat ds : Nat) : Int))]
      unfold clampEnd
      rw [if_pos hclamp]
    · intro hdne hse hlt
      show rangeResponseCore (rangeRegexMatch h) S = _
      rw [hm]
      show rangeResponse (parsedStart ds) (parsedEnd de S) S = _
      rw [parsedStart_eq ds hds hlds', parsedEnd_eq de S hdne hlde']
      unfold rangeResponse
      rw [if_neg (by omega : ¬S ≤ ((digitsToNat ds : Nat) : Int))]
      unfold clampEnd
      rw [if_neg (by omega :
        ¬(S ≤ ((digitsToNat de : Nat) : Int) ∨
          ((digitsToNat de : Nat) : Int) < ((digitsToNat ds : Nat) : Int)))]
  · show rangeResponseCore (Option.bind none rangeRegexMatch) S = _
    rfl
  · intro h hm
    show rangeResponseCore (rangeRegexMatch h) S = _
    rw [hm]
    rfl

theorem c3_range_semantics_witness :
    (1 : Int) ≤ 1000 ∧
    rangeRegexMatch "bytes=2000-3000" =
      some (['2', '0', '0', '0'], ['3', '0', '0', '0']) ∧
    streamFileResponse false (some "bytes=2000-3000") 1000 =
      ⟨416, some "bytes */1000", none, 0⟩ ∧
    streamFileResponse false none 1000 = ⟨200, none, some 1000, 1000⟩ ∧
    rangeRegexMatch "bytes=0-99" = some (['0'], ['9', '9']) ∧
    streamFileResponse false (some "bytes=0-99") 1000 =
      ⟨206, some "bytes 0-99/1000", some 100, 100⟩ := by
  have hS : (1 : Int) ≤ 1000 := by norm_num
  have hm1 : rangeRegexMatch "bytes=2000-3000" =
      some (['2', '0', '0', '0'], ['3', '0', '0', '0']) := by decide
  have hm2 : rangeRegexMatch "bytes=0-99" = some (['0'], ['9', '9']) := by decide
  have h416 := ((c3_range_semantics 1000 hS).1 "bytes=2000-3000"
    ['2', '0', '0', '0'] ['3', '0', '0', '0'] hm1 (by decide) (by decide)
    (by decide)).1 (by decide)
  have h206 := ((c3_range_semantics 1000 hS).1 "bytes=0-99"
    ['0'] ['9', '9'] hm2 (by decide) (by decide) (by decide)).2.2
    (by decide) (by decide) (by decide)
  refine ⟨hS, hm1, ?_, (c3_range_semantics 1000 hS).2.1, hm2, ?_⟩
  · rw [h416]
    decide
  · rw [h206]
    decide

/-! ## HEAD semantics (claim C8) -/

/-- Counterexample to claim C8 as stated: on the remote path the proxy
relays the upstream headers verbatim (minus `Transfer-Encoding`), so a HEAD
request on a 1000-byte file whose backend answers the substituted
`Range: bytes=0-0` with `206` / `Content-Length: 1` is relayed with
`Content-Length: 1` — not "Content-Length equal to the full file size". -/
theorem c8_counterexample :
    proxyNzbdavStream "HEAD" ⟨none, none, none, none, none, none⟩ c8Upstream =
      .proxied "GET" ⟨some "bytes=0-0", none, none, none, none, none⟩ 206
        [("Content-Length", "1"), ("Content-Range", "bytes 0-0/1000")] false ∧
    ("Content-Length", "1000") ∉
      [(("Content-Length" : String), ("1" : String)),
        ("Content-Range", "bytes 0-0/1000")] := by
  exact ⟨by decide, by decide⟩

/-- Claim C8 amended: for every HEAD request the proxy sends zero body
bytes — on the remote path it forwards a GET whose `Range` header is the
inbound one with `bytes=0-0` substituted when absent, never pipes the
upstream body, and relays the upstream status and headers verbatim except
`Transfer-Encoding` (so `Content-Length` is whatever the upstream answered
for the substituted ranged GET, not necessarily the full file size); on the
local fallback path a HEAD responds `200`, headers only, with
`Content-Length` equal to the full file size and zero body bytes. -/
theorem c8_head_semantics (method : String) (inbound : ProxyHeaders)
    (upstream : UpstreamResponse)
    (hm : jsToUpper method = "HEAD") :
    proxyNzbdavStream method inbound upstream =
      .proxied "GET" (forwardedHeaders true inbound) upstream.status
        (upstream.headers.filter (fun p => !(jsToLower p.1 == "transfer-encoding")))
        false ∧
    (forwardedHeaders true inbound).range =
      (if copyHeader inbound.range = none then some "bytes=0-0"
       else copyHeader inbound.range) ∧
    (∀ (rh : Option String) (S : Int),
       streamFileResponse true rh S = ⟨200, none, some S, 0⟩) := by
  refine ⟨?_, ?_, fun rh S => rfl⟩
  · unfold proxyNzbdavStream
    rw [hm]
    have hd : decide (("HEAD" : String) = "HEAD") = true := by decide
    rw [if_pos (Or.inr rfl), if_pos rfl, hd]
    simp
  · simp [forwardedHeaders]

theorem c8_head_semantics_witness :
    jsToUpper "HEAD" = "HEAD" ∧
    proxyNzbdavStream "HEAD" ⟨none, some "", none, none, none, some "vlc"⟩
        ⟨206, [("Transfer-Encoding", "chunked"), ("Content-Length", "1")], true⟩ =
      .proxied "GET"
        (forwardedHeaders true ⟨none, some "", none, none, none, some "vlc"⟩) 206
        ([("Transfer-Encoding", "chunked"), ("Content-Length", "1")].filter
          (fun p => !(jsToLower p.1 == "transfer-encoding"))) false := by
  have hm : jsToUpper "HEAD" = "HEAD" := by decide
  exact ⟨hm,
    (c8_head_semantics "HEAD" ⟨none, some "", none, none, none, some "vlc"⟩
      ⟨206, [("Transfer-Encoding", "chunked"), ("Content-Length", "1")], true⟩ hm).1⟩

/-! ## Fallback on job failure (claim C9) -/

/-- Claim C9 (fallback on job failure): when the stream handler catches an
explicit job failure and the bundled fallback file exists, the client gets
the fallback video served by the full range-supporting file path, with the
real failure reason in the `X-NZBDav-Failure` header exactly when response
headers are unsent — never an HTTP error response; every other error type
surfaces as an explicit error response only when no bytes (indeed no
headers) have been sent, and otherwise the connection is simply ended. -/
theorem c9_fallback_on_job_failure (method : String) (rangeHeader : Option String)
    (headersSent bytesSent : Bool) (size : Int) (e : NzbError)
    (hb : bytesSent = true → headersSent = true) :
    (e.isNzbdavFailure = true →
      handleStreamError method rangeHeader headersSent (some size) e =
        .fallbackStream (if headersSent then none else some (failureReasonOf e))
          (streamFileResponse (decide (jsToUpper method = "HEAD")) rangeHeader size) ∧
      ∀ st msg, handleStreamError method rangeHeader headersSent (some size) e ≠
        .errorJson st msg) ∧
    (e.isNzbdavFailure = false →
      (headersSent = false →
        handleStreamError method rangeHeader headersSent (some size) e =
          .errorJson (jsErrorStatus e) e.message) ∧
      (bytesSent = true →
        handleStreamError method rangeHeader headersSent (some size) e =
          .connectionEnd) ∧
      (∀ st msg,
        handleStreamError method rangeHeader headersSent (some size) e =
          .errorJson st msg → bytesSent = false)) := by
  constructor
  · intro hf
    have heq : handleStreamError method rangeHeader headersSent (some size) e =
        .fallbackStream (if headersSent then none else some (failureReasonOf e))
          (streamFileResponse (decide (jsToUpper method = "HEAD")) rangeHeader size) := by
      simp [handleStreamError, streamFailureVideo, hf]
    refine ⟨heq, ?_⟩
    intro st msg hne
    rw [heq] at hne
    exact HandlerErrorOutcome.noConfusion hne
  · intro hf
    refine ⟨?_, ?_, ?_⟩
    · intro hh
      simp [handleStreamError, hf, hh]
    · intro hbs
      simp [handleStreamError, hf, hb hbs]
    · intro st msg hej
      by_contra hbs
      rw [Bool.not_eq_false] at hbs
      rw [hb hbs] at hej
      simp [handleStreamError, hf] at hej

theorem c9_fallback_on_job_failure_witness :
    sampleFailure.isNzbdavFailure = true ∧
    handleStreamError "GET" none false (some 1000) sampleFailure =
      .fallbackStream (some "boom") ⟨200, none, some 1000, 1000⟩ ∧
    sampleTimeout.isNzbdavFailure = false ∧
    handleStreamError "GET" none false (some 1000) sampleTimeout =
      .errorJson 502 "[NZBDAV] Timeout while waiting for NZB to become streamable" := by
  have hb : (false : Bool) = true → (false : Bool) = true := fun h => h
  have h1 := (c9_fallback_on_job_failure "GET" none false false 1000
    sampleFailure hb).1 rfl
  have h2 := (c9_fallback_on_job_failure "GET" none false false 1000
    sampleTimeout hb).2 rfl
  refine ⟨rfl, ?_, rfl, ?_⟩
  · rw [h1.1]
    decide
  · rw [h2.1 rfl]
    decide

/-! ## Poller classification (claim C5) -/

theorem waitLoop_step_slots (responses : Nat → PollResponse)
    (nzoId category : String) (fuel k : Nat)
    (hcond : k * NZBDAV_POLL_INTERVAL_MS < NZBDAV_POLL_TIMEOUT_MS)
    (l : List HistorySlot) (hr : responses k = .slots l) :
    waitLoopFuel responses nzoId category (fuel + 1) k =
      match l.find? (fun s => s.nzoId == nzoId) with
      | some slot =>
        if jsToLower slot.status = "completed" then .ok slot
        else if jsToLower slot.status = "failed" then
          .err (jobFailureError slot nzoId category)
        else waitLoopFuel responses nzoId category fuel (k + 1)
      | none => waitLoopFuel responses nzoId category fuel (k + 1) := by
  rw [waitLoopFuel, if_pos hcond, hr]

theorem waitLoop_step_managerError (responses : Nat → PollResponse)
    (nzoId category : String) (fuel k : Nat)
    (hcond : k * NZBDAV_POLL_INTERVAL_MS < NZBDAV_POLL_TIMEOUT_MS)
    (msg : String) (hr : responses k = .managerError msg) :
    waitLoopFuel responses nzoId category (fuel + 1) k =
      .err (historyQueryError msg) := by
  unfold waitLoopFuel
  rw [if_pos hcond, hr]

theorem waitLoop_deadline (responses : Nat → PollResponse)
    (nzoId category : String) (fuel k : Nat)
    (hcond : ¬k * NZBDAV_POLL_INTERVAL_MS < NZBDAV_POLL_TIMEOUT_MS) :
    waitLoopFuel responses nzoId category (fuel + 1) k = .err pollTimeoutError := by
  unfold waitLoopFuel
  rw [if_neg hcond]

theorem poll_cond_lt (k : Nat) (hk : k ≤ 39) :
    k * NZBDAV_POLL_INTERVAL_MS < NZBDAV_POLL_TIMEOUT_MS := by
  simp only [NZBDAV_POLL_INTERVAL_MS, NZBDAV_POLL_TIMEOUT_MS]
  omega

theorem waitLoop_skip (responses : Nat → PollResponse) (nzoId category : String)
    (fuel k : Nat) (hk : k ≤ 39)
    (hc : pollContinuesAt responses nzoId k = true) :
    waitLoopFuel responses nzoId category (fuel + 1) k =
      waitLoopFuel responses nzoId category fuel (k + 1) := by
  unfold pollContinuesAt at hc
  cases hr : responses k with
  | managerError m =>
    rw [hr] at hc
    exact absurd hc (by simp)
  | slots l =>
    rw [hr] at hc
    have hc2 : (match l.find? (fun s => s.nzoId == nzoId) with
        | none => true
        | some slot =>
          !(jsToLower slot.status == "completed") &&
            !(jsToLower slot.status == "failed")) = true := hc
    rw [waitLoop_step_slots responses nzoId category fuel k (poll_cond_lt k hk) l hr]
    cases hf : l.find? (fun s => s.nzoId == nzoId) with
    | none => rfl
    | some slot =>
      rw [hf] at hc2
      have hc' : (!(jsToLower slot.status == "completed") &&
          !(jsToLower slot.status == "failed")) = true := hc2
      simp only [Bool.and_eq_true, Bool.not_eq_true', beq_eq_false_iff_ne] at hc'
      show (if jsToLower slot.status = "completed" then PollResult.ok slot
        else if jsToLower slot.status = "failed" then
          .err (jobFailureError slot nzoId category)
        else waitLoopFuel responses nzoId category fuel (k + 1)) = _
      rw [if_neg hc'.1, if_neg hc'.2]

theorem waitLoop_reach (responses : Nat → PollResponse) (nzoId category : String) :
    ∀ k, k ≤ 40 → (∀ j, j < k → pollContinuesAt responses nzoId j = true) →
      waitForNzbdavHistorySlot responses nzoId category =
        waitLoopFuel responses nzoId category (41 - k) k := by
  intro k
  induction k with
  | zero => intro _ _; rfl
  | succ n ih =>
    intro hle hcont
    have h1 : waitForNzbdavHistorySlot responses nzoId category =
        waitLoopFuel responses nzoId category (41 - n) n :=
      ih (by omega) (fun j hj => hcont j (by omega))
    rw [h1]
    have h41 : 41 - n = (41 - (n + 1)) + 1 := by omega
    rw [h41]
    exact waitLoop_skip responses nzoId category (41 - (n + 1)) n (by omega)
      (hcont n (by omega))

/-- Claim C5 (poller classification): the poller queries job history on the
fixed 2-second interval against the 80-second deadline; at the first poll
`k` whose history contains the matching slot in a terminal state (every
earlier poll having continued), status `completed` returns that slot, and
status `failed` raises the distinguished job-failure error carrying the
reason, jobId and category; a manager API error at poll `k` propagates
immediately as a plain (non-job-failure) error; and when every poll within
the deadline continues, the 80-second deadline elapses with a plain timeout
error that is not marked as a job failure. -/
theorem c5_poller_classification (responses : Nat → PollResponse)
    (nzoId category : String) (k : Nat) :
    NZBDAV_POLL_INTERVAL_MS = 2000 ∧ NZBDAV_POLL_TIMEOUT_MS = 80000 ∧
    (k ≤ 39 → (∀ j, j < k → pollContinuesAt responses nzoId j = true) →
      ∀ l, responses k = .slots l →
        ∀ slot, l.find? (fun s => s.nzoId == nzoId) = some slot →
          (jsToLower slot.status = "completed" →
            waitForNzbdavHistorySlot responses nzoId category = .ok slot) ∧
          (jsToLower slot.status = "failed" →
            waitForNzbdavHistorySlot responses nzoId category =
              .err (jobFailureError slot nzoId category) ∧
            (jobFailureError slot nzoId category).isNzbdavFailure = true ∧
            (jobFailureError slot nzoId category).nzoId = some nzoId ∧
            (jobFailureError slot nzoId category).category = some category)) ∧
    (k ≤ 39 → (∀ j, j < k → pollContinuesAt responses nzoId j = true) →
      ∀ msg, responses k = .managerError msg →
        waitForNzbdavHistorySlot responses nzoId category =
          .err (historyQueryError msg) ∧
        (historyQueryError msg).isNzbdavFailure = false) ∧
    ((∀ j, j ≤ 39 → pollContinuesAt responses nzoId j = true) →
      waitForNzbdavHistorySlot responses nzoId category = .err pollTimeoutError ∧
      pollTimeoutError.isNzbdavFailure = false) := by
  refine ⟨rfl, rfl, ?_, ?_, ?_⟩
  · intro hk hcont l hr slot hf
    have hreach := waitLoop_reach responses nzoId category k (by omega) hcont
    have h41 : 41 - k = (41 - (k + 1)) + 1 := by omega
    rw [hreach, h41,
      waitLoop_step_slots responses nzoId category (41 - (k + 1)) k
        (poll_cond_lt k hk) l hr, hf]
    constructor
    · intro hcomp
      show (if jsToLower slot.status = "completed" then PollResult.ok slot
        else _) = _
      rw [if_pos hcomp]
    · intro hfail
      have hne : ¬jsToLower slot.status = "completed" := by
        rw [hfail]
        decide
      show ((if jsToLower slot.status = "completed" then PollResult.ok slot
        else if jsToLower slot.status = "failed" then
          .err (jobFailureError slot nzoId category)
        else waitLoopFuel responses nzoId category (41 - (k + 1)) (k + 1)) =
          .err (jobFailureError slot nzoId category)) ∧ _
      rw [if_neg hne, if_pos hfail]
      exact ⟨rfl, rfl, rfl, rfl⟩
  · intro hk hcont msg hr
    have hreach := waitLoop_reach responses nzoId category k (by omega) hcont
    have h41 : 41 - k = (41 - (k + 1)) + 1 := by omega
    rw [hreach, h41,
      waitLoop_step_managerError responses nzoId category (41 - (k + 1)) k
        (poll_cond_lt k hk) msg hr]
    exact ⟨rfl, rfl⟩
  · intro hcont
    have hreach := waitLoop_reach responses nzoId category 40 (by omega)
      (fun j hj => hcont j (by omega))
    rw [hreach]
    have h41 : (41 : Nat) - 40 = 0 + 1 := rfl
    rw [h41, waitLoop_deadline responses nzoId category 0 40
      (by simp [NZBDAV_POLL_INTERVAL_MS, NZBDAV_POLL_TIMEOUT_MS])]
    exact ⟨rfl, rfl⟩

theorem c5_poller_classification_witness :
    (1 ≤ 39 ∧ (∀ j, j < 1 → pollContinuesAt samplePollResponses "n1" j = true) ∧
      samplePollResponses 1 = .slots [⟨"n1", "Completed", ""⟩] ∧
      [(⟨"n1", "Completed", ""⟩ : HistorySlot)].find?
        (fun s => s.nzoId == "n1") = some ⟨"n1", "Completed", ""⟩ ∧
      jsToLower "Completed" = "completed") ∧
    waitForNzbdavHistorySlot samplePollResponses "n1" "Movies" =
      .ok ⟨"n1", "Completed", ""⟩ := by
  have hk : 1 ≤ 39 := by omega
  have hcont : ∀ j, j < 1 → pollContinuesAt samplePollResponses "n1" j = true := by
    intro j hj
    interval_cases j
    decide
  have hr : samplePollResponses 1 = .slots [⟨"n1", "Completed", ""⟩] := by decide
  have hf : [(⟨"n1", "Completed", ""⟩ : HistorySlot)].find?
      (fun s => s.nzoId == "n1") = some ⟨"n1", "Completed", ""⟩ := by decide
  have hcomp : jsToLower "Completed" = "completed" := by decide
  refine ⟨⟨hk, hcont, hr, hf, hcomp⟩, ?_⟩
  exact ((c5_poller_classification samplePollResponses "n1" "Movies" 1).2.2.1
    hk hcont [⟨"n1", "Completed", ""⟩] hr ⟨"n1", "Completed", ""⟩ hf).1 hcomp

/-! ## Bounded traversal: termination machinery (claims C4, C6) -/

theorem subtreeBound_succ (fsys : String → Option (List DavEntry)) (n : Nat)
    (p : String) :
    subtreeBound fsys (n + 1) p =
      1 + (match fsys p with
        | none => 0
        | some es => childrenBound fsys n p es) := by
  cases h : fsys p <;>
    simp [subtreeBound, subtreeBoundStep, childrenBound, h]

theorem subtreeBound_pos (fsys : String → Option (List DavEntry)) (n : Nat)
    (p : String) : 1 ≤ subtreeBound fsys n p := by
  cases n with
  | zero => exact le_refl 1
  | succ n =>
    rw [subtreeBound_succ]
    exact Nat.le_add_right 1 _

theorem processEntry_queue (re : Option Episode) (p : String) (d : Nat)
    (s : BfsState) (e : DavEntry) :
    (processEntry re p d s e).queue =
      s.queue ++ (if e.isDirectory then
        [⟨childPath p (effectiveChildSegment e.name), d + 1⟩]
      else ([] : List QItem)) := by
  simp only [processEntry]
  by_cases hd : e.isDirectory
  · simp [hd]
  · simp only [hd, Bool.false_eq_true, if_false, List.append_nil]
    by_cases hv : e.name = "" ∨ ¬isVideoFileName e.name
    · rw [if_pos hv]
    · rw [if_neg hv]

theorem processEntry_visited (re : Option Episode) (p : String) (d : Nat)
    (s : BfsState) (e : DavEntry) :
    (processEntry re p d s e).visited = s.visited := by
  simp only [processEntry]
  by_cases hd : e.isDirectory
  · simp [hd]
  · simp only [hd, Bool.false_eq_true, if_false]
    by_cases hv : e.name = "" ∨ ¬isVideoFileName e.name
    · rw [if_pos hv]
    · rw [if_neg hv]

theorem childItems_cons (p : String) (d : Nat) (e : DavEntry) (es : List DavEntry) :
    childItems p d (e :: es) =
      (if e.isDirectory then
        [⟨childPath p (effectiveChildSegment e.name), d + 1⟩]
      else ([] : List QItem)) ++ childItems p d es := by
  unfold childItems
  by_cases hd : e.isDirectory <;> simp [List.filterMap_cons, hd]

theorem childrenBound_cons (fsys : String → Option (List DavEntry)) (n : Nat)
    (p : String) (e : DavEntry) (es : List DavEntry) :
    childrenBound fsys n p (e :: es) =
      (if e.isDirectory then
        subtreeBound fsys n (childPath p (effectiveChildSegment e.name))
      else 0) + childrenBound fsys n p es := by
  unfold childrenBound
  simp

theorem foldl_processEntry_queue (re : Option Episode) (p : String) (d : Nat) :
    ∀ (es : List DavEntry) (s : BfsState),
      (es.foldl (processEntry re p d) s).queue = s.queue ++ childItems p d es
  | [], s => by simp [childItems]
  | e :: es, s => by
    simp only [List.foldl_cons]
    rw [foldl_processEntry_queue re p d es (processEntry re p d s e),
      processEntry_queue, childItems_cons, List.append_assoc]

theorem foldl_processEntry_visited (re : Option Episode) (p : String) (d : Nat) :
    ∀ (es : List DavEntry) (s : BfsState),
      (es.foldl (processEntry re p d) s).visited = s.visited
  | [], s => rfl
  | e :: es, s => by
    simp only [List.foldl_cons]
    rw [foldl_processEntry_visited re p d es (processEntry re p d s e),
      processEntry_visited]

theorem queueMeasure_append (fsys : String → Option (List DavEntry))
    (q1 q2 : List QItem) :
    queueMeasure fsys (q1 ++ q2) = queueMeasure fsys q1 + queueMeasure fsys q2 := by
  simp [queueMeasure]

theorem queueMeasure_cons (fsys : String → Option (List DavEntry)) (it : QItem)
    (q : List QItem) :
    queueMeasure fsys (it :: q) = itemWeight fsys it + queueMeasure fsys q := by
  simp [queueMeasure]

theorem queueMeasure_childItems (fsys : String → Option (List DavEntry))
    (p : String) (d : Nat) (es : List DavEntry) :
    queueMeasure fsys (childItems p d es) =
      childrenBound fsys (NZBDAV_MAX_DIRECTORY_DEPTH - d) p es := by
  induction es with
  | nil => rfl
  | cons e es ih =>
    rw [childItems_cons, queueMeasure_append, childrenBound_cons, ih]
    by_cases hd : e.isDirectory
    · rw [if_pos hd, if_pos hd]
      congr 1
      simp only [queueMeasure, List.map_cons, List.map_nil, List.sum_cons,
        List.sum_nil, Nat.add_zero, itemWeight, Nat.add_sub_add_right]
    · rw [if_neg hd, if_neg hd]
      simp [queueMeasure]

theorem bfsStep_eq (fsys : String → Option (List DavEntry)) (re : Option Episode)
    (it : QItem) (rest : List QItem) (s : BfsState) :
    bfsStep fsys re it rest s =
      if it.depth > NZBDAV_MAX_DIRECTORY_DEPTH then { s with queue := rest }
      else if visitedHas s.visited it.path then { s with queue := rest }
      else match fsys it.path with
        | none => { s with queue := rest, visited := s.visited ++ [it] }
        | some entries => entries.foldl (processEntry re it.path it.depth)
            { s with queue := rest, visited := s.visited ++ [it] } := rfl

theorem bfsStep_queue_measure (fsys : String → Option (List DavEntry))
    (re : Option Episode) (it : QItem) (rest : List QItem) (s : BfsState) :
    queueMeasure fsys (bfsStep fsys re it rest s).queue + 1 ≤
      queueMeasure fsys (it :: rest) := by
  have hpos : 1 ≤ itemWeight fsys it :=
    subtreeBound_pos fsys (NZBDAV_MAX_DIRECTORY_DEPTH + 1 - it.depth) it.path
  rw [queueMeasure_cons]
  by_cases hd : it.depth > NZBDAV_MAX_DIRECTORY_DEPTH
  · have hq : (bfsStep fsys re it rest s).queue = rest := by
      rw [bfsStep_eq, if_pos hd]
    rw [hq]
    omega
  · by_cases hv : visitedHas s.visited it.path
    · have hq : (bfsStep fsys re it rest s).queue = rest := by
        rw [bfsStep_eq, if_neg hd, if_pos hv]
      rw [hq]
      omega
    · cases hf : fsys it.path with
      | none =>
        have hq : (bfsStep fsys re it rest s).queue = rest := by
          rw [bfsStep_eq, if_neg hd, if_neg hv, hf]
        rw [hq]
        omega
      | some es =>
        have hq : (bfsStep fsys re it rest s).queue =
            rest ++ childItems it.path it.depth es := by
          rw [bfsStep_eq, if_neg hd, if_neg hv, hf]
          exact foldl_processEntry_queue re it.path it.depth es _
        rw [hq, queueMeasure_append, queueMeasure_childItems]
        have hw : itemWeight fsys it =
            1 + childrenBound fsys (NZBDAV_MAX_DIRECTORY_DEPTH - it.depth) it.path es := by
          unfold itemWeight
          have heq : NZBDAV_MAX_DIRECTORY_DEPTH + 1 - it.depth =
              (NZBDAV_MAX_DIRECTORY_DEPTH - it.depth) + 1 := by omega
          rw [heq, subtreeBound_succ, hf]
        omega

theorem queueMeasure_zero (fsys : String → Option (List DavEntry)) (q : List QItem)
    (h : queueMeasure fsys q = 0) : q = [] := by
  cases q with
  | nil => rfl
  | cons it rest =>
    exfalso
    have hpos : 1 ≤ itemWeight fsys it :=
      subtreeBound_pos fsys (NZBDAV_MAX_DIRECTORY_DEPTH + 1 - it.depth) it.path
    rw [queueMeasure_cons] at h
    omega

theorem bfsRun_succ (fsys : String → Option (List DavEntry)) (re : Option Episode)
    (fuel : Nat) (s : BfsState) :
    bfsRun fsys re (fuel + 1) s =
      match s.queue with
      | [] => some s
      | it :: rest => bfsRun fsys re fuel (bfsStep fsys re it rest s) := rfl

theorem bfsRun_total (fsys : String → Option (List DavEntry)) (re : Option Episode) :
    ∀ (fuel : Nat) (s : BfsState), queueMeasure fsys s.queue ≤ fuel →
      ∃ r, bfsRun fsys re fuel s = some r
  | 0, s, h => by
    have hq : s.queue = [] := queueMeasure_zero fsys s.queue (Nat.le_zero.1 h)
    exact ⟨s, by simp [bfsRun, hq]⟩
  | fuel + 1, s, h => by
    cases hq : s.queue with
    | nil => exact ⟨s, by rw [bfsRun_succ, hq]⟩
    | cons it rest =>
      have hm := bfsStep_queue_measure fsys re it rest s
      have h' : queueMeasure fsys (it :: rest) ≤ fuel + 1 := hq ▸ h
      have hle : queueMeasure fsys (bfsStep fsys re it rest s).queue ≤ fuel := by omega
      obtain ⟨r, hr⟩ := bfsRun_total fsys re fuel (bfsStep fsys re it rest s) hle
      refine ⟨r, ?_⟩
      rw [bfsRun_succ, hq]
      exact hr

theorem bfsRun_mono (fsys : String → Option (List DavEntry)) (re : Option Episode) :
    ∀ (fuel : Nat) (s : BfsState), queueMeasure fsys s.queue ≤ fuel →
      bfsRun fsys re (fuel + 1) s = bfsRun fsys re fuel s
  | 0, s, h => by
    have hq : s.queue = [] := queueMeasure_zero fsys s.queue (Nat.le_zero.1 h)
    rw [bfsRun_succ, hq]
    simp [bfsRun, hq]
  | fuel + 1, s, h => by
    cases hq : s.queue with
    | nil =>
      rw [bfsRun_succ, hq, bfsRun_succ, hq]
    | cons it rest =>
      have hm := bfsStep_queue_measure fsys re it rest s
      have h' : queueMeasure fsys (it :: rest) ≤ fuel + 1 := hq ▸ h
      have hle : queueMeasure fsys (bfsStep fsys re it rest s).queue ≤ fuel := by omega
      have ih := bfsRun_mono fsys re fuel (bfsStep fsys re it rest s) hle
      rw [bfsRun_succ, hq, bfsRun_succ, hq]
      exact ih

theorem bfsRun_ge (fsys : String → Option (List DavEntry)) (re : Option Episode)
    (fuel fuel' : Nat) (s : BfsState) (h : queueMeasure fsys s.queue ≤ fuel)
    (hle : fuel ≤ fuel') : bfsRun fsys re fuel' s = bfsRun fsys re fuel s := by
  induction fuel' with
  | zero =>
    cases Nat.le_zero.1 hle
    rfl
  | succ n ih =>
    by_cases hn : fuel ≤ n
    · rw [bfsRun_mono fsys re n s (le_trans h hn), ih hn]
    · have heq : fuel = n + 1 := by omega
      rw [heq]

theorem bfsRun_inv (fsys : String → Option (List DavEntry)) (re : Option Episode)
    (P : BfsState → Prop)
    (hstep : ∀ it rest s, P s → P (bfsStep fsys re it rest s)) :
    ∀ (fuel : Nat) (s r : BfsState), P s → bfsRun fsys re fuel s = some r → P r
  | 0, s, r, hp, hr => by
    unfold bfsRun at hr
    by_cases hq : s.queue.isEmpty
    · rw [if_pos hq] at hr
      cases hr
      exact hp
    · rw [if_neg hq] at hr
      exact Option.noConfusion hr
  | fuel + 1, s, r, hp, hr => by
    rw [bfsRun_succ] at hr
    cases hq : s.queue with
    | nil =>
      rw [hq] at hr
      have hr' : some s = some r := hr
      cases hr'
      exact hp
    | cons it rest =>
      rw [hq] at hr
      exact bfsRun_inv fsys re P hstep fuel (bfsStep fsys re it rest s) r (hstep it rest s hp) hr

/-! ## Selection lemmas -/

theorem runningBest_cases (c : Candidate) (b : Option Candidate) :
    ∃ a, runningBest c b = some a ∧ (a = c ∨ b = some a) ∧ c.size ≤ a.size ∧
      (∀ x, b = some x → x.size ≤ a.size) := by
  cases b with
  | none =>
    exact ⟨c, rfl, Or.inl rfl, le_refl _, fun x hx => Option.noConfusion hx⟩
  | some x =>
    by_cases h : c.size > x.size
    · refine ⟨c, by simp [runningBest, h], Or.inl rfl, le_refl _, ?_⟩
      intro y hy
      cases hy
      omega
    · refine ⟨x, by simp [runningBest, h], Or.inr rfl, by omega, ?_⟩
      intro y hy
      cases hy
      exact le_refl _

theorem runningMax_foldl (l : List Candidate) :
    ∀ acc : Option Candidate,
      (l.foldl (fun b c => runningBest c b) acc = none → acc = none ∧ l = []) ∧
      (∀ b, l.foldl (fun b c => runningBest c b) acc = some b →
        ((b ∈ l ∨ acc = some b) ∧
         (∀ c ∈ l, c.size ≤ b.size) ∧
         (∀ a, acc = some a → a.size ≤ b.size))) := by
  induction l with
  | nil =>
    intro acc
    constructor
    · intro h
      exact ⟨h, rfl⟩
    · intro b hb
      refine ⟨Or.inr hb, by simp, ?_⟩
      intro a ha
      rw [ha] at hb
      cases hb
      exact le_refl _
  | cons c cs ih =>
    intro acc
    obtain ⟨a', ha', hcase, hcs, hmono⟩ := runningBest_cases c acc
    constructor
    · intro h
      simp only [List.foldl_cons] at h
      rw [ha'] at h
      obtain ⟨hnone, _⟩ := (ih (some a')).1 h
      exact Option.noConfusion hnone
    · intro b hb
      simp only [List.foldl_cons] at hb
      rw [ha'] at hb
      obtain ⟨hmem, hall, hacc⟩ := (ih (some a')).2 b hb
      have haleb : a'.size ≤ b.size := hacc a' rfl
      refine ⟨?_, ?_, ?_⟩
      · rcases hmem with hm | hm
        · exact Or.inl (List.mem_cons_of_mem _ hm)
        · cases hm
          rcases hcase with hc | hc
          · exact Or.inl (hc ▸ List.mem_cons_self _ _)
          · exact Or.inr hc
      · intro x hx
        rcases List.mem_cons.1 hx with hx | hx
        · subst hx
          exact le_trans hcs haleb
        · exact hall x hx
      · intro a ha
        exact le_trans (hmono a ha) haleb

theorem runningMax_none (l : List Candidate) (h : runningMax l = none) : l = [] :=
  ((runningMax_foldl l none).1 h).2

theorem runningMax_some (l : List Candidate) (b : Candidate)
    (h : runningMax l = some b) : b ∈ l ∧ ∀ c ∈ l, c.size ≤ b.size := by
  obtain ⟨hmem, hall, _⟩ := (runningMax_foldl l none).2 b h
  rcases hmem with hm | hm
  · exact ⟨hm, hall⟩
  · exact Option.noConfusion hm

theorem runningMax_append_one (l : List Candidate) (c : Candidate) :
    runningMax (l ++ [c]) = runningBest c (runningMax l) := by
  simp [runningMax, List.foldl_append]

/-! ## Locator invariant preservation -/

theorem processEntry_inv (re : Option Episode) (p : String) (d : Nat)
    (s : BfsState) (e : DavEntry) (h : LocatorInv re s) :
    LocatorInv re (processEntry re p d s e) := by
  obtain ⟨h1, h2, h3, h4, h5⟩ := h
  simp only [processEntry]
  by_cases hd : e.isDirectory
  · rw [if_pos hd]
    exact ⟨h1, h2, h3, h4, h5⟩
  · rw [if_neg hd]
    by_cases hv : e.name = "" ∨ ¬isVideoFileName e.name
    · rw [if_pos hv]
      exact ⟨h1, h2, h3, h4, h5⟩
    · rw [if_neg hv]
      refine ⟨h1, h2, ?_, ?_, ?_⟩
      · show (if fileMatchesEpisode e.name re then
            runningBest _ s.bestEpisodeMatch else s.bestEpisodeMatch) =
          runningMax ((s.files ++ [_]).filter (fun c => c.matchesEpisode))
        rw [List.filter_append]
        by_cases hm : fileMatchesEpisode e.name re
        · rw [if_pos hm]
          have hfc : (([⟨e.name, e.size, fileMatchesEpisode e.name re,
              childPath p (effectiveChildSegment e.name),
              stripLeadingSlashes (childPath p (effectiveChildSegment e.name))⟩] :
              List Candidate).filter (fun c => c.matchesEpisode)) =
              [⟨e.name, e.size, fileMatchesEpisode e.name re,
                childPath p (effectiveChildSegment e.name),
                stripLeadingSlashes (childPath p (effectiveChildSegment e.name))⟩] := by
            simp [List.filter, hm]
          rw [hfc, runningMax_append_one, h3]
        · rw [if_neg hm]
          have hfc : (([⟨e.name, e.size, fileMatchesEpisode e.name re,
              childPath p (effectiveChildSegment e.name),
              stripLeadingSlashes (childPath p (effectiveChildSegment e.name))⟩] :
              List Candidate).filter (fun c => c.matchesEpisode)) = [] := by
            simp [List.filter, Bool.eq_false_iff.2 hm]
          rw [hfc, List.append_nil, h3]
      · show runningBest _ s.bestMatch = runningMax (s.files ++ [_])
        rw [runningMax_append_one, h4]
      · intro c hc
        rcases List.mem_append.1 hc with hc | hc
        · exact h5 c hc
        · rcases List.mem_singleton.1 hc with rfl
          rfl

theorem foldl_processEntry_inv (re : Option Episode) (p : String) (d : Nat) :
    ∀ (es : List DavEntry) (s : BfsState), LocatorInv re s →
      LocatorInv re (es.foldl (processEntry re p d) s)
  | [], s, h => h
  | e :: es, s, h => by
    simp only [List.foldl_cons]
    exact foldl_processEntry_inv re p d es (processEntry re p d s e)
      (processEntry_inv re p d s e h)

theorem visitedHas_false (v : List QItem) (p : String)
    (h : visitedHas v p = false) : ∀ q ∈ v, q.path ≠ p := by
  intro q hq heq
  have hv : visitedHas v p = true := by
    simp only [visitedHas, List.any_eq_true]
    exact ⟨q, hq, by simp [heq]⟩
  rw [h] at hv
  exact Bool.noConfusion hv

theorem bfsStep_inv (fsys : String → Option (List DavEntry)) (re : Option Episode)
    (it : QItem) (rest : List QItem) (s : BfsState) (h : LocatorInv re s) :
    LocatorInv re (bfsStep fsys re it rest s) := by
  obtain ⟨h1, h2, h3, h4, h5⟩ := h
  rw [bfsStep_eq]
  by_cases hd : it.depth > NZBDAV_MAX_DIRECTORY_DEPTH
  · rw [if_pos hd]
    exact ⟨h1, h2, h3, h4, h5⟩
  · rw [if_neg hd]
    by_cases hv : visitedHas s.visited it.path
    · rw [if_pos hv]
      exact ⟨h1, h2, h3, h4, h5⟩
    · rw [if_neg hv]
      have hs1 : LocatorInv re { s with queue := rest, visited := s.visited ++ [it] } := by
        refine ⟨?_, ?_, h3, h4, h5⟩
        · show ((s.visited ++ [it]).map (·.path)).Nodup
          rw [List.map_append]
          refine (List.nodup_append).2 ⟨h1, by simp, ?_⟩
          intro x hx hy
          simp only [List.map_cons, List.map_nil, List.mem_singleton] at hy
          obtain ⟨q, hq, hqx⟩ := List.mem_map.1 hx
          exact visitedHas_false s.visited it.path (Bool.eq_false_iff.2 hv) q hq
            (by rw [hqx, hy])
        · intro q hq
          rcases List.mem_append.1 hq with hq | hq
          · exact h2 q hq
          · rcases List.mem_singleton.1 hq with rfl
            omega
      cases hf : fsys it.path with
      | none => exact hs1
      | some es => exact foldl_processEntry_inv re it.path it.depth es _ hs1

theorem findBestVideoFileState_run (fsys : String → Option (List DavEntry))
    (re : Option Episode) (category jobName : String) :
    bfsRun fsys re (bfsFuel fsys category jobName) (initBfsState category jobName) =
      some (findBestVideoFileState fsys category jobName re) := by
  obtain ⟨r, hr⟩ := bfsRun_total fsys re (bfsFuel fsys category jobName)
    (initBfsState category jobName) (le_refl _)
  unfold findBestVideoFileState
  rw [hr]
  rfl

theorem locatorInv_final (fsys : String → Option (List DavEntry))
    (category jobName : String) (re : Option Episode) :
    LocatorInv re (findBestVideoFileState fsys category jobName re) := by
  have hinit : LocatorInv re (initBfsState category jobName) := by
    refine ⟨by simp [initBfsState], by simp [initBfsState], rfl, rfl,
      by simp [initBfsState]⟩
  exact bfsRun_inv fsys re (LocatorInv re)
    (fun it rest s h => bfsStep_inv fsys re it rest s h)
    (bfsFuel fsys category jobName) (initBfsState category jobName)
    (findBestVideoFileState fsys category jobName re) hinit
    (findBestVideoFileState_run fsys re category jobName)

/-- Claim C4 (best-file selection): among the video files discovered by the
traversal (the `files` instrumentation of the final loop state), if any
matches the requested season/episode then `findBestVideoFile` returns an
episode-matching discovered file of maximal size; otherwise, if any video
file was discovered at all, it returns a discovered file of maximal size
overall; it returns `null` exactly when no video file was discovered; and
with no requested episode every discovered file counts as matching, so the
largest file overall is returned. -/
theorem c4_best_file_selection (fsys : String → Option (List DavEntry))
    (category jobName : String) (re : Option Episode) :
    ((∃ c ∈ (findBestVideoFileState fsys category jobName re).files,
        c.matchesEpisode = true) →
      ∃ b, findBestVideoFile fsys category jobName re = some b ∧
        b ∈ (findBestVideoFileState fsys category jobName re).files ∧
        b.matchesEpisode = true ∧
        ∀ c ∈ (findBestVideoFileState fsys category jobName re).files,
          c.matchesEpisode = true → c.size ≤ b.size) ∧
    ((¬∃ c ∈ (findBestVideoFileState fsys category jobName re).files,
        c.matchesEpisode = true) →
      (findBestVideoFileState fsys category jobName re).files ≠ [] →
      ∃ b, findBestVideoFile fsys category jobName re = some b ∧
        b ∈ (findBestVideoFileState fsys category jobName re).files ∧
        ∀ c ∈ (findBestVideoFileState fsys category jobName re).files,
          c.size ≤ b.size) ∧
    ((findBestVideoFileState fsys category jobName re).files = [] →
      findBestVideoFile fsys category jobName re = none) ∧
    (re = none →
      ∀ c ∈ (findBestVideoFileState fsys category jobName re).files,
        c.matchesEpisode = true) := by
  obtain ⟨h1, h2, h3, h4, h5⟩ := locatorInv_final fsys category jobName re
  refine ⟨?_, ?_, ?_, ?_⟩
  · intro hex
    obtain ⟨c, hcmem, hcm⟩ := hex
    have hcf : c ∈ (findBestVideoFileState fsys category jobName re).files.filter
        (fun c => c.matchesEpisode) := List.mem_filter.2 ⟨hcmem, hcm⟩
    cases hbe : (findBestVideoFileState fsys category jobName re).bestEpisodeMatch with
    | none =>
      rw [h3] at hbe
      rw [runningMax_none _ hbe] at hcf
      exact absurd hcf (List.not_mem_nil c)
    | some b =>
      have hres : findBestVideoFile fsys category jobName re = some b := by
        unfold findBestVideoFile
        rw [hbe]
      have hb := runningMax_some _ b (h3 ▸ hbe)
      obtain ⟨hbmem, hball⟩ := hb
      obtain ⟨hbF, hbm⟩ := List.mem_filter.1 hbmem
      refine ⟨b, hres, hbF, hbm, ?_⟩
      intro x hx hxm
      exact hball x (List.mem_filter.2 ⟨hx, hxm⟩)
  · intro hnex hne
    have hfe : (findBestVideoFileState fsys category jobName re).files.filter
        (fun c => c.matchesEpisode) = [] := by
      rw [List.filter_eq_nil_iff]
      intro c hc hcm
      exact hnex ⟨c, hc, hcm⟩
    have hbe : (findBestVideoFileState fsys category jobName re).bestEpisodeMatch =
        none := by
      rw [h3, hfe]
      rfl
    cases hbm : (findBestVideoFileState fsys category jobName re).bestMatch with
    | none =>
      rw [h4] at hbm
      exact absurd (runningMax_none _ hbm) hne
    | some b =>
      have hres : findBestVideoFile fsys category jobName re = some b := by
        unfold findBestVideoFile
        rw [hbe, hbm]
      obtain ⟨hbmem, hball⟩ := runningMax_some _ b (h4 ▸ hbm)
      exact ⟨b, hres, hbmem, hball⟩
  · intro hF
    have hbe : (findBestVideoFileState fsys category jobName re).bestEpisodeMatch =
        none := by
      rw [h3, hF]
      rfl
    have hbm : (findBestVideoFileState fsys category jobName re).bestMatch = none := by
      rw [h4, hF]
      rfl
    unfold findBestVideoFile
    rw [hbe, hbm]
  · intro hre c hc
    rw [h5 c hc, hre]
    rfl

theorem c4_best_file_selection_witness :
    (∃ c ∈ (findBestVideoFileState sampleFs "Tv" "Job" (some ⟨1, 3⟩)).files,
      c.matchesEpisode = true) ∧
    (∃ b, findBestVideoFile sampleFs "Tv" "Job" (some ⟨1, 3⟩) = some b ∧
      b ∈ (findBestVideoFileState sampleFs "Tv" "Job" (some ⟨1, 3⟩)).files ∧
      b.matchesEpisode = true ∧
      ∀ c ∈ (findBestVideoFileState sampleFs "Tv" "Job" (some ⟨1, 3⟩)).files,
        c.matchesEpisode = true → c.size ≤ b.size) ∧
    findBestVideoFile sampleFs "Tv" "Job" (some ⟨1, 3⟩) =
      some ⟨"S01E03.mkv", 3000, true, "/content/Tv/Job/S01E03.mkv",
        "content/Tv/Job/S01E03.mkv"⟩ ∧
    findBestVideoFile sampleFs "Tv" "Job" none =
      some ⟨"extras.mkv", 5000, true, "/content/Tv/Job/extras.mkv",
        "content/Tv/Job/extras.mkv"⟩ := by
  have hex : ∃ c ∈ (findBestVideoFileState sampleFs "Tv" "Job" (some ⟨1, 3⟩)).files,
      c.matchesEpisode = true :=
    ⟨⟨"S01E03.mkv", 3000, true, "/content/Tv/Job/S01E03.mkv",
      "content/Tv/Job/S01E03.mkv"⟩, by decide, rfl⟩
  refine ⟨hex, (c4_best_file_selection sampleFs "Tv" "Job" (some ⟨1, 3⟩)).1 hex,
    by decide, by decide⟩

/-! ## A listing failure behaves exactly like an empty directory -/

theorem overrideEmpty_self (fsys : String → Option (List DavEntry)) (p : String) :
    overrideEmpty fsys p p = some [] := by
  simp [overrideEmpty]

theorem overrideEmpty_other (fsys : String → Option (List DavEntry)) (p q : String)
    (hq : ¬q = p) : overrideEmpty fsys p q = fsys q := by
  simp [overrideEmpty, hq]

theorem subtreeBound_override (fsys : String → Option (List DavEntry)) (p : String)
    (hp : fsys p = none) :
    ∀ (n : Nat) (q : String),
      subtreeBound (overrideEmpty fsys p) n q = subtreeBound fsys n q
  | 0, q => rfl
  | n + 1, q => by
    rw [subtreeBound_succ, subtreeBound_succ]
    by_cases hq : q = p
    · subst hq
      rw [hp, overrideEmpty_self]
      rfl
    · rw [overrideEmpty_other fsys p q hq]
      cases hfq : fsys q with
      | none => rfl
      | some es =>
        have hfun : (fun e : DavEntry => if e.isDirectory then
            subtreeBound (overrideEmpty fsys p) n
              (childPath q (effectiveChildSegment e.name)) else 0) =
            (fun e : DavEntry => if e.isDirectory then
              subtreeBound fsys n (childPath q (effectiveChildSegment e.name)) else 0) := by
          funext e
          by_cases hd : e.isDirectory
          · rw [if_pos hd, if_pos hd, subtreeBound_override fsys p hp n _]
          · rw [if_neg hd, if_neg hd]
        show 1 + childrenBound (overrideEmpty fsys p) n q es =
          1 + childrenBound fsys n q es
        unfold childrenBound
        rw [hfun]

theorem bfsStep_override (fsys : String → Option (List DavEntry)) (p : String)
    (hp : fsys p = none) (re : Option Episode) (it : QItem) (rest : List QItem)
    (s : BfsState) :
    bfsStep (overrideEmpty fsys p) re it rest s = bfsStep fsys re it rest s := by
  rw [bfsStep_eq, bfsStep_eq]
  by_cases hd : it.depth > NZBDAV_MAX_DIRECTORY_DEPTH
  · rw [if_pos hd, if_pos hd]
  · rw [if_neg hd, if_neg hd]
    by_cases hv : visitedHas s.visited it.path
    · rw [if_pos hv, if_pos hv]
    · rw [if_neg hv, if_neg hv]
      by_cases hq : it.path = p
      · rw [hq, hp, overrideEmpty_self]
        rfl
      · rw [overrideEmpty_other fsys p it.path hq]

theorem bfsRun_override (fsys : String → Option (List DavEntry)) (p : String)
    (hp : fsys p = none) (re : Option Episode) :
    ∀ (fuel : Nat) (s : BfsState),
      bfsRun (overrideEmpty fsys p) re fuel s = bfsRun fsys re fuel s
  | 0, s => rfl
  | fuel + 1, s => by
    rw [bfsRun_succ, bfsRun_succ]
    cases hq : s.queue with
    | nil => rfl
    | cons it rest =>
      show bfsRun (overrideEmpty fsys p) re fuel
          (bfsStep (overrideEmpty fsys p) re it rest s) =
        bfsRun fsys re fuel (bfsStep fsys re it rest s)
      rw [bfsStep_override fsys p hp re it rest s,
        bfsRun_override fsys p hp re fuel (bfsStep fsys re it rest s)]

/-- Claim C6 (bounded, terminating traversal): for every remote tree —
including trees with repeated paths and depth beyond the cap — the loop
terminates: the computed iteration bound is sufficient fuel and every larger
fuel yields the same final state; each distinct path is listed at most once;
no directory at depth greater than 6 below the job's content root is ever
listed; and a directory whose listing fails is skipped exactly as if it were
an empty directory, leaving the traversal of every sibling subtree and the
final result unchanged. -/
theorem c6_bounded_traversal (fsys : String → Option (List DavEntry))
    (category jobName : String) (re : Option Episode) :
    (∀ fuel, bfsFuel fsys category jobName ≤ fuel →
      bfsRun fsys re fuel (initBfsState category jobName) =
        some (findBestVideoFileState fsys category jobName re)) ∧
    ((findBestVideoFileState fsys category jobName re).visited.map (·.path)).Nodup ∧
    (∀ it ∈ (findBestVideoFileState fsys category jobName re).visited,
      it.depth ≤ NZBDAV_MAX_DIRECTORY_DEPTH) ∧
    (∀ p, fsys p = none →
      findBestVideoFileState (overrideEmpty fsys p) category jobName re =
        findBestVideoFileState fsys category jobName re ∧
      findBestVideoFile (overrideEmpty fsys p) category jobName re =
        findBestVideoFile fsys category jobName re) := by
  obtain ⟨h1, h2, _, _, _⟩ := locatorInv_final fsys category jobName re
  refine ⟨?_, h1, h2, ?_⟩
  · intro fuel hf
    rw [bfsRun_ge fsys re (bfsFuel fsys category jobName) fuel
      (initBfsState category jobName) (le_refl _) hf]
    exact findBestVideoFileState_run fsys re category jobName
  · intro p hp
    have hfuel : bfsFuel (overrideEmpty fsys p) category jobName =
        bfsFuel fsys category jobName := by
      unfold bfsFuel queueMeasure initBfsState itemWeight
      simp [subtreeBound_override fsys p hp]
    have hstate : findBestVideoFileState (overrideEmpty fsys p) category jobName re =
        findBestVideoFileState fsys category jobName re := by
      unfold findBestVideoFileState
      rw [hfuel, bfsRun_override fsys p hp re]
    refine ⟨hstate, ?_⟩
    unfold findBestVideoFile
    rw [hstate]

theorem c6_bounded_traversal_witness :
    deepFs "/content/Tv/Deep/b" = none ∧
    ((findBestVideoFileState deepFs "Tv" "Deep" none).visited.map (·.path)).Nodup ∧
    (∀ it ∈ (findBestVideoFileState deepFs "Tv" "Deep" none).visited,
      it.depth ≤ NZBDAV_MAX_DIRECTORY_DEPTH) ∧
    findBestVideoFileState (overrideEmpty deepFs "/content/Tv/Deep/b")
        "Tv" "Deep" none =
      findBestVideoFileState deepFs "Tv" "Deep" none ∧
    (findBestVideoFileState deepFs "Tv" "Deep" none).visited.length = 8 := by
  have hb : deepFs "/content/Tv/Deep/b" = none := by decide
  have h := c6_bounded_traversal deepFs "Tv" "Deep" none
  exact ⟨hb, h.2.1, h.2.2.1, (h.2.2.2 "/content/Tv/Deep/b" hb).1, by decide⟩
